import Mathlib

/-!
Verification of the blog generator's core pipeline (`src/main.py`).

Filesystem paths are modelled as lists of components (`pathlib.Path` parts).
A source tree is modelled by the inductive `FSEntry`; file contents are
strings.  The global `Node.cache_map` class attribute is modelled as an
explicitly threaded association list.
-/

set_option maxRecDepth 100000

namespace Blogger

/-- The fixed ignore set, `src/main.py` line 20. -/
def ignore_item : List String := [".git", "LICENSE"]

/-- A filesystem entry: either a regular file (with its text content) or a
directory with a list of direct children, in enumeration order. -/
inductive FSEntry where
  | file (name : String) (content : String)
  | dir (name : String) (children : List FSEntry)

/-- `Path.name`: the entry's own name. -/
def FSEntry.name : FSEntry → String
  | .file n _ => n
  | .dir n _ => n

/-- `Path.is_dir`. -/
def FSEntry.isDir : FSEntry → Bool
  | .file _ _ => false
  | .dir _ _ => true

/-- `Path.iterdir()`: the direct children of a directory (empty for files). -/
def FSEntry.childrenOf : FSEntry → List FSEntry
  | .file _ _ => []
  | .dir _ cs => cs

instance : Inhabited FSEntry := ⟨.file "" ""⟩

/-- Size measure used for termination of the breadth-first traversals. -/
def FSEntry.weight : FSEntry → Nat
  | .file _ _ => 1
  | .dir _ cs => 1 + (cs.attach.map (fun c => FSEntry.weight c.1)).sum
  termination_by e => sizeOf e
  decreasing_by
    have h := List.sizeOf_lt_of_mem c.2
    simp only [FSEntry.dir.sizeOf_spec]
    omega

theorem FSEntry.weight_pos (e : FSEntry) : 0 < e.weight := by
  cases e <;> simp [FSEntry.weight]

theorem FSEntry.weight_children_lt (e : FSEntry) :
    ((e.childrenOf.map FSEntry.weight).sum) < e.weight := by
  cases e with
  | file n c => simp [FSEntry.childrenOf, FSEntry.weight]
  | dir n cs =>
    simp only [FSEntry.childrenOf, FSEntry.weight]
    have : (cs.attach.map (fun c => FSEntry.weight c.1)).sum
        = (cs.map FSEntry.weight).sum := by
      rw [List.attach_map_coe]
    omega

/-- The node type determination, `src/main.py` lines 74-82: `leaf` for a
non-directory; for a directory, `article` when some direct child is named
`index.md`, else `category`. -/
def node_type_of (e : FSEntry) : String :=
  if e.isDir then
    if e.childrenOf.any (fun c => c.name == "index.md") then "article" else "category"
  else "leaf"

/-- One `Node` (`src/main.py` lines 23-43).  Children are recorded by
source path into the registry. -/
structure NodeRec where
  source_path : List String
  destination_path : List String
  node_type : String
  children : List (List String)
  metadata : Option (List (String × String))
deriving DecidableEq

/-- The registry `Node.cache_map`: an association list from source path to
node, with insertion overwriting an existing binding in place. -/
abbrev Store := List (List String × NodeRec)

/-- `cache_map[k]` lookup. -/
def storeFind (s : Store) (k : List String) : Option NodeRec :=
  (s.find? (fun kv => kv.1 == k)).map (fun kv => kv.2)

/-- `cache_map[k] = v`: replace an existing binding in place, else append. -/
def storeInsert (s : Store) (k : List String) (v : NodeRec) : Store :=
  match s with
  | [] => [(k, v)]
  | (k0, v0) :: rest =>
    if k0 == k then (k, v) :: rest else (k0, v0) :: storeInsert rest k v

/-- `cache_map[k].children.append(c)` (mutation of the stored parent node). -/
def storeAppendChild (s : Store) (k : List String) (c : List String) : Store :=
  match s with
  | [] => []
  | (k0, v0) :: rest =>
    if k0 == k then (k0, { v0 with children := v0.children ++ [c] }) :: rest
    else (k0, v0) :: storeAppendChild rest k c

/-- Destination path of a non-root node, `src/main.py` lines 89-93:
`destination_root_dir / relative_path`, with a final component `index.md`
replaced by `index.html`. -/
def python_dest (destRoot rel : List String) : List String :=
  let d := destRoot ++ rel
  if d.getLastD "" == "index.md" then d.dropLast ++ ["index.html"] else d

/-- The breadth-first loop of `walk_dir`, `src/main.py` lines 66-95.
The queue holds pairs (full path, entry).  `rootOpt` models the `root`
variable (the root node is identified by its source path).  A failing
`Node.cache_map[item.parent]` lookup is the Python `KeyError`. -/
def walkLoop (dirPath destRoot : List String) :
    List (List String × FSEntry) → Store → Option (List String) →
      Except String (Option (List String) × Store)
  | [], cache, rootOpt => .ok (rootOpt, cache)
  | (p, e) :: rest, cache, rootOpt =>
    if ignore_item.contains e.name then
      walkLoop dirPath destRoot rest cache rootOpt
    else
      let q2 := rest ++ e.childrenOf.map (fun c => (p ++ [c.name], c))
      let t := node_type_of e
      match rootOpt with
      | none =>
        walkLoop dirPath destRoot q2
          (storeInsert cache p ⟨p, destRoot, t, [], none⟩) (some p)
      | some rp =>
        match storeFind cache p.dropLast with
        | none => .error "KeyError"
        | some _ =>
          let rel := p.drop dirPath.length
          let dst := python_dest destRoot rel
          let cache2 := storeInsert cache p ⟨p, dst, t, [], none⟩
          let cache3 := storeAppendChild cache2 p.dropLast p
          walkLoop dirPath destRoot q2 cache3 (some rp)
  termination_by q _ _ => (q.map (fun pe => pe.2.weight)).sum
  decreasing_by
  · simp only [List.map_cons, List.sum_cons]
    have := FSEntry.weight_pos e
    omega
  · have h := FSEntry.weight_children_lt e
    have h2 : (List.map (fun pe => pe.2.weight)
          (List.map (fun c => (p ++ [c.name], c)) e.childrenOf)).sum
        = (List.map FSEntry.weight e.childrenOf).sum := by
      rw [List.map_map]; rfl
    simp only [List.map_cons, List.sum_cons, List.map_append, List.sum_append]
    omega
  · have h := FSEntry.weight_children_lt e
    have h2 : (List.map (fun pe => pe.2.weight)
          (List.map (fun c => (p ++ [c.name], c)) e.childrenOf)).sum
        = (List.map FSEntry.weight e.childrenOf).sum := by
      rw [List.map_map]; rfl
    simp only [List.map_cons, List.sum_cons, List.map_append, List.sum_append]
    omega

/-- `walk_dir` (`src/main.py` lines 46-99).  The input root lives at
`rootParent ++ [root.name]`; the output root is
`dir_path.parent / destination_blog_dir_name`.  `cache0` is the content of
the class attribute `Node.cache_map` when the call starts. -/
def walk_dir (rootParent : List String) (root : FSEntry)
    (destination_blog_dir_name : String) (cache0 : Store) :
    Except String (Option (List String) × Store) :=
  let dirPath := rootParent ++ [root.name]
  let destRoot := rootParent ++ [destination_blog_dir_name]
  walkLoop dirPath destRoot [(dirPath, root)] cache0 none

/-! ### Registry (`Node.cache_map`) lemmas -/

/-- A key is bound in the registry. -/
def storeHasKey (s : Store) (k : List String) : Prop :=
  ∃ nd, (k, nd) ∈ s

theorem storeInsert_mem {s : Store} {k : List String} {v : NodeRec}
    {p : List String} {nd : NodeRec} (h : (p, nd) ∈ storeInsert s k v) :
    (p, nd) ∈ s ∨ (p = k ∧ nd = v) := by
  induction s with
  | nil =>
    simp only [storeInsert, List.mem_singleton, Prod.mk.injEq] at h
    exact Or.inr ⟨h.1, h.2⟩
  | cons kv rest ih =>
    obtain ⟨k0, v0⟩ := kv
    by_cases hk : (k0 == k) = true
    · rw [storeInsert, if_pos hk] at h
      rcases List.mem_cons.mp h with heq | hmem
      · obtain ⟨h1, h2⟩ := Prod.mk.injEq .. ▸ heq
        exact Or.inr ⟨h1, h2⟩
      · exact Or.inl (List.mem_cons_of_mem _ hmem)
    · rw [storeInsert, if_neg hk] at h
      rcases List.mem_cons.mp h with heq | hmem
      · exact Or.inl (List.mem_cons.mpr (Or.inl heq))
      · rcases ih hmem with h2 | h2
        · exact Or.inl (List.mem_cons_of_mem _ h2)
        · exact Or.inr h2

theorem storeInsert_hasKey_self (s : Store) (k : List String) (v : NodeRec) :
    storeHasKey (storeInsert s k v) k := by
  induction s with
  | nil => exact ⟨v, by simp [storeInsert]⟩
  | cons kv rest ih =>
    obtain ⟨k0, v0⟩ := kv
    by_cases hk : (k0 == k) = true
    · exact ⟨v, by rw [storeInsert, if_pos hk]; exact List.mem_cons_self _ _⟩
    · obtain ⟨nd, hnd⟩ := ih
      exact ⟨nd, by rw [storeInsert, if_neg hk]; exact List.mem_cons_of_mem _ hnd⟩

theorem storeInsert_hasKey_of {s : Store} {p : List String}
    (h : storeHasKey s p) (k : List String) (v : NodeRec) :
    storeHasKey (storeInsert s k v) p := by
  induction s with
  | nil => simp [storeHasKey] at h
  | cons kv rest ih =>
    obtain ⟨k0, v0⟩ := kv
    obtain ⟨nd, hnd⟩ := h
    by_cases hk : (k0 == k) = true
    · rcases List.mem_cons.mp hnd with heq | hmem
      · have hpk0 : p = k0 := (Prod.mk.injEq .. ▸ heq).1
        have hk0k : k0 = k := beq_iff_eq.mp hk
        rw [hpk0, hk0k]
        exact storeInsert_hasKey_self _ _ _
      · exact ⟨nd, by rw [storeInsert, if_pos hk]; exact List.mem_cons_of_mem _ hmem⟩
    · rcases List.mem_cons.mp hnd with heq | hmem
      · exact ⟨nd, by rw [storeInsert, if_neg hk]; exact List.mem_cons.mpr (Or.inl heq)⟩
      · obtain ⟨nd2, hnd2⟩ := ih ⟨nd, hmem⟩
        exact ⟨nd2, by rw [storeInsert, if_neg hk]; exact List.mem_cons_of_mem _ hnd2⟩

theorem storeAppendChild_mem {s : Store} {k c p : List String} {nd : NodeRec}
    (h : (p, nd) ∈ storeAppendChild s k c) :
    ∃ nd0, (p, nd0) ∈ s ∧ nd.source_path = nd0.source_path ∧
      nd.destination_path = nd0.destination_path ∧ nd.node_type = nd0.node_type ∧
      (nd.children = nd0.children ∨ nd.children = nd0.children ++ [c]) := by
  induction s with
  | nil => simp [storeAppendChild] at h
  | cons kv rest ih =>
    obtain ⟨k0, v0⟩ := kv
    by_cases hk : (k0 == k) = true
    · rw [storeAppendChild, if_pos hk] at h
      rcases List.mem_cons.mp h with heq | hmem
      · obtain ⟨h1, h2⟩ := Prod.mk.injEq .. ▸ heq
        exact ⟨v0, List.mem_cons.mpr (Or.inl (by rw [h1])),
          by rw [h2], by rw [h2], by rw [h2], Or.inr (by rw [h2])⟩
      · exact ⟨nd, List.mem_cons_of_mem _ hmem, rfl, rfl, rfl, Or.inl rfl⟩
    · rw [storeAppendChild, if_neg hk] at h
      rcases List.mem_cons.mp h with heq | hmem
      · obtain ⟨h1, h2⟩ := Prod.mk.injEq .. ▸ heq
        exact ⟨v0, List.mem_cons.mpr (Or.inl (by rw [h1])),
          by rw [h2], by rw [h2], by rw [h2], Or.inl (by rw [h2])⟩
      · obtain ⟨nd0, hm, he⟩ := ih hmem
        exact ⟨nd0, List.mem_cons_of_mem _ hm, he⟩

theorem storeAppendChild_hasKey_iff (s : Store) (k c p : List String) :
    storeHasKey (storeAppendChild s k c) p ↔ storeHasKey s p := by
  induction s with
  | nil => simp [storeAppendChild, storeHasKey]
  | cons kv rest ih =>
    obtain ⟨k0, v0⟩ := kv
    by_cases hk : (k0 == k) = true
    · constructor
      · rintro ⟨nd, hnd⟩
        rw [storeAppendChild, if_pos hk] at hnd
        rcases List.mem_cons.mp hnd with heq | hmem
        · have h1 : p = k0 := (Prod.mk.injEq .. ▸ heq).1
          exact ⟨v0, List.mem_cons.mpr (Or.inl (by rw [h1]))⟩
        · exact ⟨nd, List.mem_cons_of_mem _ hmem⟩
      · rintro ⟨nd, hnd⟩
        rcases List.mem_cons.mp hnd with heq | hmem
        · have h1 : p = k0 := (Prod.mk.injEq .. ▸ heq).1
          refine ⟨{ v0 with children := v0.children ++ [c] }, ?_⟩
          rw [storeAppendChild, if_pos hk]
          exact List.mem_cons.mpr (Or.inl (by rw [h1]))
        · refine ⟨nd, ?_⟩
          rw [storeAppendChild, if_pos hk]
          exact List.mem_cons_of_mem _ hmem
    · constructor
      · rintro ⟨nd, hnd⟩
        rw [storeAppendChild, if_neg hk] at hnd
        rcases List.mem_cons.mp hnd with heq | hmem
        · exact ⟨nd, List.mem_cons.mpr (Or.inl heq)⟩
        · obtain ⟨nd2, hnd2⟩ := ih.mp ⟨nd, hmem⟩
          exact ⟨nd2, List.mem_cons_of_mem _ hnd2⟩
      · rintro ⟨nd, hnd⟩
        rcases List.mem_cons.mp hnd with heq | hmem
        · refine ⟨nd, ?_⟩
          rw [storeAppendChild, if_neg hk]
          exact List.mem_cons.mpr (Or.inl heq)
        · obtain ⟨nd2, hnd2⟩ := ih.mpr ⟨nd, hmem⟩
          refine ⟨nd2, ?_⟩
          rw [storeAppendChild, if_neg hk]
          exact List.mem_cons_of_mem _ hnd2

theorem node_type_of_cases (e : FSEntry) :
    node_type_of e = "leaf" ∨ node_type_of e = "article" ∨ node_type_of e = "category" := by
  unfold node_type_of
  by_cases h : e.isDir = true
  · by_cases h2 : e.childrenOf.any (fun c => c.name == "index.md") = true
    · simp [h, h2]
    · simp [h, h2]
  · simp [h]

theorem dropLast_append_of_getLast? {α : Type} :
    ∀ {l : List α} {a : α}, l.getLast? = some a → l.dropLast ++ [a] = l := by
  intro l
  induction l with
  | nil => intro a h; simp at h
  | cons x xs ih =>
    intro a h
    cases xs with
    | nil => simp_all
    | cons y ys =>
      rw [List.getLast?_cons_cons] at h
      have := ih h
      simpa using this

/-! ### Queue and store invariants of the traversal -/

/-- Invariant on queued items once the root is set: paths extend the input
root, the last component is the entry's own name, and all strictly interior
relative components escaped the ignore filter. -/
def QOK (dirPath : List String) (pe : List String × FSEntry) : Prop :=
  ∃ rel, pe.1 = dirPath ++ rel ∧ rel ≠ [] ∧ rel.getLast? = some pe.2.name ∧
    rel.dropLast.all (fun s => !ignore_item.contains s) = true

/-- Invariant on registry entries: field coherence, the classification
values, and the destination-path law. -/
def POK (dirPath destRoot : List String) (p : List String) (nd : NodeRec) : Prop :=
  nd.source_path = p ∧
  (nd.node_type = "leaf" ∨ nd.node_type = "article" ∨ nd.node_type = "category") ∧
  ((p = dirPath ∧ nd.destination_path = destRoot) ∨
   (∃ rel, p = dirPath ++ rel ∧ rel ≠ [] ∧
      rel.all (fun s => !ignore_item.contains s) = true ∧
      nd.destination_path = python_dest destRoot rel))

theorem walkLoop_inv (dirPath destRoot : List String) :
    ∀ (q : List (List String × FSEntry)) (cache : Store) (rootOpt : Option (List String)),
      rootOpt.isSome = true →
      (∀ pe ∈ q, QOK dirPath pe) →
      (∀ p nd, (p, nd) ∈ cache → POK dirPath destRoot p nd) →
      (∀ p nd, (p, nd) ∈ cache → ∀ c ∈ nd.children, storeHasKey cache c) →
      ∀ (ro : Option (List String)) (store : Store),
      walkLoop dirPath destRoot q cache rootOpt = .ok (ro, store) →
      (∀ p nd, (p, nd) ∈ store → POK dirPath destRoot p nd) ∧
      (∀ p nd, (p, nd) ∈ store → ∀ c ∈ nd.children, storeHasKey store c) := by
  intro q cache rootOpt
  induction q, cache, rootOpt using walkLoop.induct dirPath destRoot with
  | case1 cache rootOpt =>
    intro _ _ hc hk ro store hw
    simp only [walkLoop, Except.ok.injEq, Prod.mk.injEq] at hw
    exact ⟨hw.2 ▸ hc, hw.2 ▸ hk⟩
  | case2 p e rest cache rootOpt hig ih =>
    intro hro hq hc hk ro store hw
    rw [walkLoop, if_pos hig] at hw
    exact ih hro (fun pe hpe => hq pe (List.mem_cons_of_mem _ hpe)) hc hk ro store hw
  | case3 p e rest cache hig ih =>
    intro hro
    simp at hro
  | case4 p e rest cache hig rp hfind =>
    intro hro hq hc hk ro store hw
    rw [walkLoop, if_neg hig] at hw
    simp only [hfind] at hw
    exact absurd hw (fun h => Except.noConfusion h)
  | case5 p e rest cache hig q2 t rp val hfind rel dst cache2 cache3 ih =>
    intro hro hq hc hk ro store hw
    rw [walkLoop, if_neg hig] at hw
    simp only [hfind] at hw
    -- the processed item satisfies QOK
    have hqp : QOK dirPath (p, e) := hq (p, e) (List.mem_cons_self _ _)
    obtain ⟨rel, hp0, hrelne, hlast0, hinterior⟩ := hqp
    have hp : p = dirPath ++ rel := hp0
    have hlast : rel.getLast? = some e.name := hlast0
    have hname : (!ignore_item.contains e.name) = true := by
      simp only [Bool.not_eq_true']
      exact Bool.not_eq_true _ ▸ (by simpa using hig)
    have hreldecomp : rel.dropLast ++ [e.name] = rel :=
      dropLast_append_of_getLast? hlast
    have hrelall : rel.all (fun s => !ignore_item.contains s) = true := by
      rw [← hreldecomp, List.all_append]
      simp only [List.all_cons, List.all_nil, Bool.and_true, Bool.and_eq_true]
      exact ⟨hinterior, hname⟩
    have hdrop : p.drop dirPath.length = rel := by
      rw [hp]; exact List.drop_left _ _
    -- invariants for the new queue
    have hq2 : ∀ pe ∈ rest ++ e.childrenOf.map (fun c => (p ++ [c.name], c)),
        QOK dirPath pe := by
      intro pe hpe
      rcases List.mem_append.mp hpe with hmem | hmem
      · exact hq pe (List.mem_cons_of_mem _ hmem)
      · obtain ⟨c, hcmem, hceq⟩ := List.mem_map.mp hmem
        refine ⟨rel ++ [c.name], ?_, by simp, ?_, ?_⟩
        · rw [← hceq]; simp [hp]
        · rw [← hceq]; simp
        · rw [List.dropLast_concat]; exact hrelall
    -- invariants for the new cache
    set newNode : NodeRec :=
      ⟨p, python_dest destRoot (p.drop dirPath.length), node_type_of e, [], none⟩ with hnew
    have hPnew : POK dirPath destRoot p newNode := by
      refine ⟨rfl, node_type_of_cases e, Or.inr ⟨rel, hp, hrelne, hrelall, ?_⟩⟩
      simp [hnew, hdrop]
    have hc2 : ∀ p2 nd, (p2, nd) ∈ storeAppendChild
        (storeInsert cache p newNode) p.dropLast p →
        POK dirPath destRoot p2 nd := by
      intro p2 nd hmem
      obtain ⟨nd0, hmem0, hs, hd, ht, _⟩ := storeAppendChild_mem hmem
      have hP0 : POK dirPath destRoot p2 nd0 := by
        rcases storeInsert_mem hmem0 with h | ⟨h1, h2⟩
        · exact hc p2 nd0 h
        · rw [h1, h2]; exact hPnew
      exact ⟨hs ▸ hP0.1, ht ▸ hP0.2.1, by
        rcases hP0.2.2 with ⟨ha, hb⟩ | ⟨r, ha, hb, hcl, hdd⟩
        · exact Or.inl ⟨ha, hd ▸ hb⟩
        · exact Or.inr ⟨r, ha, hb, hcl, hd ▸ hdd⟩⟩
    have hk2 : ∀ p2 nd, (p2, nd) ∈ storeAppendChild
        (storeInsert cache p newNode) p.dropLast p →
        ∀ c ∈ nd.children, storeHasKey
          (storeAppendChild (storeInsert cache p newNode) p.dropLast p) c := by
      intro p2 nd hmem c hcmem
      rw [storeAppendChild_hasKey_iff]
      obtain ⟨nd0, hmem0, _, _, _, hch⟩ := storeAppendChild_mem hmem
      have hcmem0 : c ∈ nd0.children ∨ c = p := by
        rcases hch with h | h
        · exact Or.inl (h ▸ hcmem)
        · rw [h] at hcmem
          rcases List.mem_append.mp hcmem with hx | hx
          · exact Or.inl hx
          · exact Or.inr (by simpa using hx)
      rcases hcmem0 with hx | hx
      · rcases storeInsert_mem hmem0 with h | ⟨h1, h2⟩
        · exact storeInsert_hasKey_of (hk p2 nd0 h c hx) _ _
        · rw [h2] at hx; simp [hnew] at hx
      · exact hx ▸ storeInsert_hasKey_self _ _ _
    exact ih rfl hq2 hc2 hk2 ro store hw

/-- Entry point of the invariant: a build that is started on an empty
registry satisfies `POK` for every registry entry, and every recorded
child is itself registered. -/
theorem walk_dir_inv (rootParent : List String) (root : FSEntry) (dn : String)
    (ro : Option (List String)) (store : Store)
    (hw : walk_dir rootParent root dn [] = .ok (ro, store)) :
    (∀ p nd, (p, nd) ∈ store →
        POK (rootParent ++ [root.name]) (rootParent ++ [dn]) p nd) ∧
    (∀ p nd, (p, nd) ∈ store → ∀ c ∈ nd.children, storeHasKey store c) := by
  unfold walk_dir at hw
  by_cases hig : ignore_item.contains root.name = true
  · rw [walkLoop, if_pos hig, walkLoop] at hw
    have hst : store = [] := by
      cases hw
      rfl
    subst hst
    exact ⟨fun p nd h => absurd h (List.not_mem_nil _), fun p nd h => absurd h (List.not_mem_nil _)⟩
  · rw [walkLoop, if_neg hig] at hw
    simp only [storeInsert] at hw
    refine walkLoop_inv (rootParent ++ [root.name]) (rootParent ++ [dn]) _ _
      (some (rootParent ++ [root.name])) rfl ?_ ?_ ?_ ro store hw
    · intro pe hpe
      obtain ⟨c, hcmem, hceq⟩ := List.mem_map.mp (by simpa using hpe)
      refine ⟨[c.name], ?_, by simp, ?_, by simp⟩
      · rw [← hceq]; simp
      · rw [← hceq]; simp
    · intro p nd hmem
      have : p = rootParent ++ [root.name] ∧
          nd = ⟨rootParent ++ [root.name], rootParent ++ [dn], node_type_of root, [], none⟩ := by
        rcases List.mem_singleton.mp hmem with h
        exact ⟨(Prod.mk.injEq .. ▸ h).1, (Prod.mk.injEq .. ▸ h).2⟩
      obtain ⟨h1, h2⟩ := this
      exact ⟨by rw [h1, h2], by rw [h2]; exact node_type_of_cases root,
        Or.inl ⟨h1, by rw [h2]⟩⟩
    · intro p nd hmem c hc
      have h2 : nd = ⟨rootParent ++ [root.name], rootParent ++ [dn], node_type_of root, [], none⟩ :=
        (Prod.mk.injEq .. ▸ List.mem_singleton.mp hmem).2
      rw [h2] at hc
      exact absurd hc (List.not_mem_nil _)

/-- C1: classification of filesystem entries by the tree builder is
exhaustive and exclusive: a non-directory entry is `leaf`; a directory with
a direct child literally named `index.md` is `article`; any other directory
is `category`; and every node the builder registers carries one of these
three types. -/
theorem claim_C1 :
    (∀ e : FSEntry,
      (node_type_of e = "leaf" ↔ e.isDir = false) ∧
      (node_type_of e = "article" ↔
        (e.isDir = true ∧ e.childrenOf.any (fun c => c.name == "index.md") = true)) ∧
      (node_type_of e = "category" ↔
        (e.isDir = true ∧ e.childrenOf.any (fun c => c.name == "index.md") = false))) ∧
    (∀ (rootParent : List String) (root : FSEntry) (dn : String)
        (ro : Option (List String)) (store : Store),
      walk_dir rootParent root dn [] = .ok (ro, store) →
      ∀ p nd, (p, nd) ∈ store →
        nd.node_type = "leaf" ∨ nd.node_type = "article" ∨ nd.node_type = "category") := by
  constructor
  · intro e
    by_cases hd : e.isDir = true
    · by_cases ha : e.childrenOf.any (fun c => c.name == "index.md") = true
      · simp [node_type_of, hd, ha]
      · simp [node_type_of, hd, ha]
    · simp [node_type_of, hd, Bool.not_eq_true _ ▸ hd]
  · intro rootParent root dn ro store hw p nd hmem
    exact ((walk_dir_inv rootParent root dn ro store hw).1 p nd hmem).2.1

/-- Witness for C1 at a concrete tree: a file is a leaf, a directory with a
direct `index.md` child is an article, one without is a category, and the
registry of a concrete build carries only the three types. -/
theorem claim_C1_witness :
    node_type_of (.file "a.md" "x") = "leaf" ∧
    node_type_of (.dir "post" [.file "index.md" "hi"]) = "article" ∧
    node_type_of (.dir "blog" [.dir "post" [.file "index.md" "hi"]]) = "category" ∧
    (({ source_path := ["blog", "post"], destination_path := ["public", "post"],
        node_type := "article", children := [["blog", "post", "index.md"]],
        metadata := none } : NodeRec).node_type = "leaf" ∨
     ({ source_path := ["blog", "post"], destination_path := ["public", "post"],
        node_type := "article", children := [["blog", "post", "index.md"]],
        metadata := none } : NodeRec).node_type = "article" ∨
     ({ source_path := ["blog", "post"], destination_path := ["public", "post"],
        node_type := "article", children := [["blog", "post", "index.md"]],
        metadata := none } : NodeRec).node_type = "category") := by
  refine ⟨by simp [node_type_of, FSEntry.isDir], by
    simp [node_type_of, FSEntry.isDir, FSEntry.childrenOf, FSEntry.name], by
    simp [node_type_of, FSEntry.isDir, FSEntry.childrenOf, FSEntry.name], ?_⟩
  refine claim_C1.2 [] (.dir "blog" [.dir "post" [.file "index.md" "hi"]]) "public"
    (some ["blog"])
    [(["blog"],
      { source_path := ["blog"], destination_path := ["public"],
        node_type := "category", children := [["blog", "post"]], metadata := none }),
     (["blog", "post"],
      { source_path := ["blog", "post"], destination_path := ["public", "post"],
        node_type := "article", children := [["blog", "post", "index.md"]],
        metadata := none }),
     (["blog", "post", "index.md"],
      { source_path := ["blog", "post", "index.md"],
        destination_path := ["public", "post", "index.html"],
        node_type := "leaf", children := [], metadata := none })]
    ?_ ["blog", "post"] _ ?_
  · simp [walk_dir, walkLoop, storeInsert, storeFind, storeAppendChild, python_dest,
      node_type_of, ignore_item, FSEntry.name, FSEntry.childrenOf, FSEntry.isDir]
  · simp

/-- C2 (amended): for every successful build started on an empty registry,
the root node's destination is the configured output root regardless of
the root's own name, and every non-root node's destination is the output
root joined with the node's path relative to the input root, except that
an entry of ANY node type whose final component is exactly `index.md` has
that final component replaced by `index.html` (the code keys the rewrite
on the path's final name, not on the node being a leaf). -/
theorem claim_C2 (rootParent : List String) (root : FSEntry) (dn : String)
    (ro : Option (List String)) (store : Store)
    (hw : walk_dir rootParent root dn [] = .ok (ro, store)) :
    (∀ nd, (rootParent ++ [root.name], nd) ∈ store →
        nd.destination_path = rootParent ++ [dn]) ∧
    (∀ p nd, (p, nd) ∈ store → p ≠ rootParent ++ [root.name] →
        ∃ rel, p = (rootParent ++ [root.name]) ++ rel ∧ rel ≠ [] ∧
          nd.destination_path = python_dest (rootParent ++ [dn]) rel) := by
  have hinv := (walk_dir_inv rootParent root dn ro store hw).1
  constructor
  · intro nd hmem
    rcases (hinv _ nd hmem).2.2 with ⟨_, hdest⟩ | ⟨rel, hp, hrelne, _, _⟩
    · exact hdest
    · exfalso
      have hlen := congrArg List.length hp
      simp only [List.length_append, List.length_cons, List.length_nil] at hlen
      have hz : rel.length = 0 := by omega
      exact hrelne (List.length_eq_zero.mp hz)
  · intro p nd hmem hne
    rcases (hinv p nd hmem).2.2 with ⟨hp, _⟩ | ⟨rel, hp, hrelne, _, hdest⟩
    · exact absurd hp hne
    · exact ⟨rel, hp, hrelne, hdest⟩

/-- Counterexample to C2 as stated: in the concrete tree below the entry
`blog/index.md` is a DIRECTORY (node type `category`, not a leaf), so the
claim assigns it destination `public/index.md`; the code still rewrites
the final component and assigns `public/index.html`. -/
theorem claim_C2_counterexample :
    walk_dir [] (.dir "blog" [.dir "index.md" [.file "a.txt" "x"]]) "public" [] =
      .ok (some ["blog"],
        [(["blog"],
          { source_path := ["blog"], destination_path := ["public"],
            node_type := "article", children := [["blog", "index.md"]],
            metadata := none }),
         (["blog", "index.md"],
          { source_path := ["blog", "index.md"],
            destination_path := ["public", "index.html"],
            node_type := "category", children := [["blog", "index.md", "a.txt"]],
            metadata := none }),
         (["blog", "index.md", "a.txt"],
          { source_path := ["blog", "index.md", "a.txt"],
            destination_path := ["public", "index.md", "a.txt"],
            node_type := "leaf", children := [], metadata := none })]) ∧
    "category" ≠ "leaf" ∧
    (["public", "index.html"] : List String) ≠ ["public"] ++ ["index.md"] := by
  refine ⟨?_, by decide, by decide⟩
  simp [walk_dir, walkLoop, storeInsert, storeFind, storeAppendChild, python_dest,
    node_type_of, ignore_item, FSEntry.name, FSEntry.childrenOf, FSEntry.isDir]

/-- Witness for C2 at a concrete build: the root's destination is the
output root, and the article index file `blog/post/index.md` maps to
`public/post/index.html`. -/
theorem claim_C2_witness :
    (({ source_path := ["blog"], destination_path := ["public"],
        node_type := "category", children := [["blog", "post"]],
        metadata := none } : NodeRec).destination_path = [] ++ ["public"]) ∧
    (∃ rel, (["blog", "post", "index.md"] : List String) = ([] ++ ["blog"]) ++ rel ∧
      rel ≠ [] ∧
      ({ source_path := ["blog", "post", "index.md"],
         destination_path := ["public", "post", "index.html"],
         node_type := "leaf", children := [], metadata := none } : NodeRec).destination_path
        = python_dest ([] ++ ["public"]) rel) := by
  have hw : walk_dir [] (.dir "blog" [.dir "post" [.file "index.md" "hi"]]) "public" [] =
      .ok (some ["blog"],
        [(["blog"],
          { source_path := ["blog"], destination_path := ["public"],
            node_type := "category", children := [["blog", "post"]], metadata := none }),
         (["blog", "post"],
          { source_path := ["blog", "post"], destination_path := ["public", "post"],
            node_type := "article", children := [["blog", "post", "index.md"]],
            metadata := none }),
         (["blog", "post", "index.md"],
          { source_path := ["blog", "post", "index.md"],
            destination_path := ["public", "post", "index.html"],
            node_type := "leaf", children := [], metadata := none })]) := by
    simp [walk_dir, walkLoop, storeInsert, storeFind, storeAppendChild, python_dest,
      node_type_of, ignore_item, FSEntry.name, FSEntry.childrenOf, FSEntry.isDir]
  have h := claim_C2 [] (.dir "blog" [.dir "post" [.file "index.md" "hi"]]) "public"
    (some ["blog"]) _ hw
  refine ⟨h.1 ⟨["blog"], ["public"], "category", [["blog", "post"]], none⟩
      (by simp [FSEntry.name]), ?_⟩
  exact h.2 ["blog", "post", "index.md"]
      ⟨["blog", "post", "index.md"], ["public", "post", "index.html"], "leaf", [], none⟩
      (by simp [FSEntry.name]) (by simp [FSEntry.name])

/-- C6: entries whose name is in the ignore set are skipped entirely: if
the build root itself is ignored no node is created at all; every
registered node's path below the input root consists only of non-ignored
components (so an ignored entry, at any depth, has no node, and nothing
beneath an ignored directory is ever registered); and every path recorded
in any node's children list is itself a registered node's path, hence also
free of ignored components. -/
theorem claim_C6 (rootParent : List String) (root : FSEntry) (dn : String)
    (ro : Option (List String)) (store : Store)
    (hw : walk_dir rootParent root dn [] = .ok (ro, store)) :
    (ignore_item.contains root.name = true → store = [] ∧ ro = none) ∧
    (∀ p nd, (p, nd) ∈ store →
        ∃ rel, p = (rootParent ++ [root.name]) ++ rel ∧
          rel.all (fun s => !ignore_item.contains s) = true) ∧
    (∀ p nd, (p, nd) ∈ store → ∀ c ∈ nd.children, storeHasKey store c) := by
  refine ⟨?_, ?_, (walk_dir_inv rootParent root dn ro store hw).2⟩
  · intro hig
    unfold walk_dir at hw
    rw [walkLoop, if_pos hig, walkLoop] at hw
    cases hw
    exact ⟨rfl, rfl⟩
  · intro p nd hmem
    rcases ((walk_dir_inv rootParent root dn ro store hw).1 p nd hmem).2.2 with
      ⟨hp, _⟩ | ⟨rel, hp, _, hall, _⟩
    · exact ⟨[], by simp [hp], by simp⟩
    · exact ⟨rel, hp, hall⟩

/-- Witness for C6 at a concrete build whose tree contains a `.git`
directory (with content beneath it) and a `LICENSE` file: the resulting
registry holds only the root and `a.md`, and its entries satisfy the
ignore-freedom stated by the claim. -/
theorem claim_C6_witness :
    ∃ rel, (["blog", "a.md"] : List String) = ([] ++ ["blog"]) ++ rel ∧
      rel.all (fun s => !ignore_item.contains s) = true := by
  have hw : walk_dir []
      (.dir "blog" [.dir ".git" [.file "config" ""], .file "LICENSE" "mit",
        .file "a.md" "x"]) "public" [] =
      .ok (some ["blog"],
        [(["blog"],
          { source_path := ["blog"], destination_path := ["public"],
            node_type := "category", children := [["blog", "a.md"]], metadata := none }),
         (["blog", "a.md"],
          { source_path := ["blog", "a.md"], destination_path := ["public", "a.md"],
            node_type := "leaf", children := [], metadata := none })]) := by
    simp [walk_dir, walkLoop, storeInsert, storeFind, storeAppendChild, python_dest,
      node_type_of, ignore_item, FSEntry.name, FSEntry.childrenOf, FSEntry.isDir]
  have h := claim_C6 []
    (.dir "blog" [.dir ".git" [.file "config" ""], .file "LICENSE" "mit",
      .file "a.md" "x"]) "public" (some ["blog"]) _ hw
  exact h.2.1 ["blog", "a.md"]
    ⟨["blog", "a.md"], ["public", "a.md"], "leaf", [], none⟩
    (by simp [FSEntry.name])

/-! ### Key accounting for the registry (claim C8) -/

theorem FSEntry.sizeOf_lt_of_mem_childrenOf {e c : FSEntry}
    (h : c ∈ e.childrenOf) : sizeOf c < sizeOf e := by
  cases e with
  | file n s => simp [FSEntry.childrenOf] at h
  | dir n cs =>
    simp only [FSEntry.childrenOf] at h
    have := List.sizeOf_lt_of_mem h
    simp only [FSEntry.dir.sizeOf_spec]
    omega

/-- The source paths of the nodes a (sub)traversal creates: the queued
entry itself unless ignored, then recursively the non-ignored reachable
entries beneath it. -/
def qReach : List String × FSEntry → List (List String)
  | (p, e) =>
    if ignore_item.contains e.name then []
    else p :: (e.childrenOf.attach.map (fun c => qReach (p ++ [c.1.name], c.1))).flatten
  termination_by pe => sizeOf pe.2
  decreasing_by
    exact FSEntry.sizeOf_lt_of_mem_childrenOf c.2

theorem qReach_ignored {p : List String} {e : FSEntry}
    (h : ignore_item.contains e.name = true) : qReach (p, e) = [] := by
  rw [qReach, if_pos h]

theorem qReach_not_ignored {p : List String} {e : FSEntry}
    (h : ¬ ignore_item.contains e.name = true) :
    qReach (p, e) =
      p :: (e.childrenOf.map (fun c => qReach (p ++ [c.name], c))).flatten := by
  rw [qReach, if_neg h]
  congr 1
  rw [List.attach_map_coe (l := e.childrenOf) (f := fun c => qReach (p ++ [c.name], c))]

/-- The key set of the registry. -/
def storeKeys (s : Store) : List (List String) := s.map Prod.fst

theorem storeHasKey_iff_mem_storeKeys (s : Store) (k : List String) :
    storeHasKey s k ↔ k ∈ storeKeys s := by
  constructor
  · rintro ⟨nd, hnd⟩
    exact List.mem_map.mpr ⟨(k, nd), hnd, rfl⟩
  · intro h
    obtain ⟨⟨k0, nd⟩, hmem, hk⟩ := List.mem_map.mp h
    have hk2 : k0 = k := hk
    subst hk2
    exact ⟨nd, hmem⟩

theorem storeInsert_hasKey_iff (s : Store) (k : List String) (v : NodeRec)
    (p : List String) :
    storeHasKey (storeInsert s k v) p ↔ p = k ∨ storeHasKey s p := by
  constructor
  · rintro ⟨nd, hnd⟩
    rcases storeInsert_mem hnd with h | ⟨h1, _⟩
    · exact Or.inr ⟨nd, h⟩
    · exact Or.inl h1
  · rintro (h | h)
    · exact h ▸ storeInsert_hasKey_self s k v
    · exact storeInsert_hasKey_of h k v

theorem storeAppendChild_keys_eq (s : Store) (k c : List String) :
    storeKeys (storeAppendChild s k c) = storeKeys s := by
  induction s with
  | nil => rfl
  | cons kv rest ih =>
    obtain ⟨k0, v0⟩ := kv
    by_cases hk : (k0 == k) = true
    · rw [storeAppendChild, if_pos hk]; rfl
    · rw [storeAppendChild, if_neg hk]
      simp only [storeKeys, List.map_cons] at ih ⊢
      rw [ih]

theorem storeKeys_insert_mem {s : Store} {k : List String} {v : NodeRec}
    {m : List String} (h : m ∈ storeKeys (storeInsert s k v)) :
    m ∈ storeKeys s ∨ m = k := by
  have := (storeHasKey_iff_mem_storeKeys _ _).mpr h
  rcases (storeInsert_hasKey_iff s k v m).mp this with h2 | h2
  · exact Or.inr h2
  · exact Or.inl ((storeHasKey_iff_mem_storeKeys _ _).mp h2)

theorem storeKeys_insert_nodup (s : Store) (k : List String) (v : NodeRec)
    (h : (storeKeys s).Nodup) : (storeKeys (storeInsert s k v)).Nodup := by
  induction s with
  | nil => simp [storeInsert, storeKeys]
  | cons kv rest ih =>
    obtain ⟨k0, v0⟩ := kv
    simp only [storeKeys, List.map_cons, List.nodup_cons] at h
    by_cases hk : (k0 == k) = true
    · rw [storeInsert, if_pos hk]
      simp only [storeKeys, List.map_cons, List.nodup_cons]
      exact ⟨(beq_iff_eq.mp hk) ▸ h.1, h.2⟩
    · rw [storeInsert, if_neg hk]
      simp only [storeKeys, List.map_cons, List.nodup_cons]
      refine ⟨?_, ih h.2⟩
      intro hmem
      rcases storeKeys_insert_mem hmem with h2 | h2
      · exact h.1 h2
      · exact hk (beq_iff_eq.mpr h2)

/-- The key set of the registry after a traversal: exactly the non-ignored
reachable paths of the processed queue, together with whatever keys the
registry already held when the traversal started.  Nothing is ever
removed. -/
theorem walkLoop_keys (dirPath destRoot : List String) :
    ∀ (q : List (List String × FSEntry)) (cache : Store)
      (rootOpt : Option (List String)) (ro : Option (List String)) (store : Store),
      walkLoop dirPath destRoot q cache rootOpt = .ok (ro, store) →
      ∀ k, storeHasKey store k ↔ (k ∈ (q.map qReach).flatten ∨ storeHasKey cache k) := by
  intro q cache rootOpt
  induction q, cache, rootOpt using walkLoop.induct dirPath destRoot with
  | case1 cache rootOpt =>
    intro ro store hw k
    simp only [walkLoop, Except.ok.injEq, Prod.mk.injEq] at hw
    rw [← hw.2]
    simp
  | case2 p e rest cache rootOpt hig ih =>
    intro ro store hw k
    rw [walkLoop, if_pos hig] at hw
    rw [ih ro store hw k]
    simp [qReach_ignored hig]
  | case3 p e rest cache hig q2 t ih =>
    intro ro store hw k
    rw [walkLoop, if_neg hig] at hw
    have hih := ih ro store hw k
    unfold q2 at hih
    rw [hih, storeInsert_hasKey_iff]
    simp only [qReach_not_ignored hig, List.map_append, List.map_cons,
      List.flatten_append, List.flatten_cons, List.mem_append, List.mem_cons,
      List.map_map]
    tauto
  | case4 p e rest cache hig rp hfind =>
    intro ro store hw k
    rw [walkLoop, if_neg hig] at hw
    simp only [hfind] at hw
    exact absurd hw (fun h => Except.noConfusion h)
  | case5 p e rest cache hig q2 t rp val hfind rel dst cache2 cache3 ih =>
    intro ro store hw k
    rw [walkLoop, if_neg hig] at hw
    simp only [hfind] at hw
    have hih := ih ro store hw k
    unfold q2 at hih
    rw [hih, storeAppendChild_hasKey_iff, storeInsert_hasKey_iff]
    simp only [qReach_not_ignored hig, List.map_append, List.map_cons,
      List.flatten_append, List.flatten_cons, List.mem_append, List.mem_cons,
      List.map_map]
    tauto

/-- The traversal keeps registry keys duplicate-free. -/
theorem walkLoop_keys_nodup (dirPath destRoot : List String) :
    ∀ (q : List (List String × FSEntry)) (cache : Store)
      (rootOpt : Option (List String)) (ro : Option (List String)) (store : Store),
      walkLoop dirPath destRoot q cache rootOpt = .ok (ro, store) →
      (storeKeys cache).Nodup → (storeKeys store).Nodup := by
  intro q cache rootOpt
  induction q, cache, rootOpt using walkLoop.induct dirPath destRoot with
  | case1 cache rootOpt =>
    intro ro store hw hn
    simp only [walkLoop, Except.ok.injEq, Prod.mk.injEq] at hw
    rw [← hw.2]
    exact hn
  | case2 p e rest cache rootOpt hig ih =>
    intro ro store hw hn
    rw [walkLoop, if_pos hig] at hw
    exact ih ro store hw hn
  | case3 p e rest cache hig q2 t ih =>
    intro ro store hw hn
    rw [walkLoop, if_neg hig] at hw
    exact ih ro store hw (storeKeys_insert_nodup _ _ _ hn)
  | case4 p e rest cache hig rp hfind =>
    intro ro store hw hn
    rw [walkLoop, if_neg hig] at hw
    simp only [hfind] at hw
    exact absurd hw (fun h => Except.noConfusion h)
  | case5 p e rest cache hig q2 t rp val hfind rel dst cache2 cache3 ih =>
    intro ro store hw hn
    rw [walkLoop, if_neg hig] at hw
    simp only [hfind] at hw
    refine ih ro store hw ?_
    rw [storeAppendChild_keys_eq]
    exact storeKeys_insert_nodup _ _ _ hn

/-- C8 (amended): within one build, every non-ignored reachable entry has
exactly one registry binding (the key set after a build is exactly the
non-ignored reachable source paths of that build together with the keys
already present, and keys stay duplicate-free); but the registry is the
class attribute `Node.cache_map`, so entries persist after the call and
across successive build calls in the same process — a fresh registry is
obtained only by starting a fresh process. -/
theorem claim_C8 (rootParent : List String) (root : FSEntry) (dn : String)
    (cache0 : Store) (ro : Option (List String)) (store : Store)
    (hw : walk_dir rootParent root dn cache0 = .ok (ro, store)) :
    (∀ k, storeHasKey store k ↔
        (k ∈ qReach (rootParent ++ [root.name], root) ∨ storeHasKey cache0 k)) ∧
    ((storeKeys cache0).Nodup → (storeKeys store).Nodup) ∧
    (∀ k, storeHasKey cache0 k → storeHasKey store k) := by
  unfold walk_dir at hw
  have hkeys := walkLoop_keys (rootParent ++ [root.name]) (rootParent ++ [dn])
    [(rootParent ++ [root.name], root)] cache0 none ro store hw
  refine ⟨?_, walkLoop_keys_nodup (rootParent ++ [root.name]) (rootParent ++ [dn])
    [(rootParent ++ [root.name], root)] cache0 none ro store hw, ?_⟩
  · intro k
    rw [hkeys k]
    simp
  · intro k h
    rw [hkeys k]
    exact Or.inr h

/-- Counterexample to C8 as stated: the registry does NOT exist only for
the duration of a single build call.  Starting a second build call in the
same process (i.e. with `Node.cache_map` still holding the first build's
entries) yields a registry that still contains the first build's binding
for `blog/a.md`, an entry that does not exist in the second build's input
tree. -/
theorem claim_C8_counterexample :
    walk_dir [] (.dir "blog" [.file "a.md" "x"]) "public" [] =
      .ok (some ["blog"],
        [(["blog"], ⟨["blog"], ["public"], "category", [["blog", "a.md"]], none⟩),
         (["blog", "a.md"], ⟨["blog", "a.md"], ["public", "a.md"], "leaf", [], none⟩)]) ∧
    walk_dir [] (.dir "doc" [.file "b.md" "y"]) "public"
      [(["blog"], ⟨["blog"], ["public"], "category", [["blog", "a.md"]], none⟩),
       (["blog", "a.md"], ⟨["blog", "a.md"], ["public", "a.md"], "leaf", [], none⟩)] =
      .ok (some ["doc"],
        [(["blog"], ⟨["blog"], ["public"], "category", [["blog", "a.md"]], none⟩),
         (["blog", "a.md"], ⟨["blog", "a.md"], ["public", "a.md"], "leaf", [], none⟩),
         (["doc"], ⟨["doc"], ["public"], "category", [["doc", "b.md"]], none⟩),
         (["doc", "b.md"], ⟨["doc", "b.md"], ["public", "b.md"], "leaf", [], none⟩)]) ∧
    (["blog", "a.md"],
      (⟨["blog", "a.md"], ["public", "a.md"], "leaf", [], none⟩ : NodeRec)) ∈
      ([(["blog"], ⟨["blog"], ["public"], "category", [["blog", "a.md"]], none⟩),
        (["blog", "a.md"], ⟨["blog", "a.md"], ["public", "a.md"], "leaf", [], none⟩),
        (["doc"], ⟨["doc"], ["public"], "category", [["doc", "b.md"]], none⟩),
        (["doc", "b.md"], ⟨["doc", "b.md"], ["public", "b.md"], "leaf", [], none⟩)] : Store) := by
  refine ⟨?_, ?_, by simp⟩ <;>
    simp [walk_dir, walkLoop, storeInsert, storeFind, storeAppendChild, python_dest,
      node_type_of, ignore_item, FSEntry.name, FSEntry.childrenOf, FSEntry.isDir]

/-- Witness for C8 at a concrete build from an empty registry: the built
registry has a binding for the reachable entry `blog/a.md`, its keys are
duplicate-free, and the (empty) prior registry's keys all persist. -/
theorem claim_C8_witness :
    (storeHasKey
      [(["blog"], ⟨["blog"], ["public"], "category", [["blog", "a.md"]], none⟩),
       (["blog", "a.md"], ⟨["blog", "a.md"], ["public", "a.md"], "leaf", [], none⟩)]
      ["blog", "a.md"] ↔
      (["blog", "a.md"] ∈ qReach ([] ++ ["blog"], .dir "blog" [.file "a.md" "x"]) ∨
        storeHasKey [] ["blog", "a.md"])) ∧
    ((storeKeys
      [(["blog"], ⟨["blog"], ["public"], "category", [["blog", "a.md"]], none⟩),
       (["blog", "a.md"], ⟨["blog", "a.md"], ["public", "a.md"], "leaf", [], none⟩)]).Nodup) := by
  have hw : walk_dir [] (.dir "blog" [.file "a.md" "x"]) "public" [] =
      .ok (some ["blog"],
        [(["blog"], ⟨["blog"], ["public"], "category", [["blog", "a.md"]], none⟩),
         (["blog", "a.md"], ⟨["blog", "a.md"], ["public", "a.md"], "leaf", [], none⟩)]) := by
    simp [walk_dir, walkLoop, storeInsert, storeFind, storeAppendChild, python_dest,
      node_type_of, ignore_item, FSEntry.name, FSEntry.childrenOf, FSEntry.isDir]
  have h := claim_C8 [] (.dir "blog" [.file "a.md" "x"]) "public" [] (some ["blog"]) _ hw
  exact ⟨by simpa [FSEntry.name] using h.1 ["blog", "a.md"],
    h.2.1 (by simp [storeKeys])⟩

/-! ### Metadata extraction (`read_metadata` / `parse_metadata`,
`src/main.py` lines 242-265) and front-matter stripping
(`remove_metadata`, lines 111-121).

File contents are strings; line processing is modelled on the underlying
character list. -/

/-- Split a character list at `'\n'`, like Python `s.split('\n')`:
always at least one piece, separators dropped. -/
def splitNl : List Char → List (List Char)
  | [] => [[]]
  | c :: cs =>
    if c = '\n' then [] :: splitNl cs
    else
      match splitNl cs with
      | [] => [[c]]
      | p :: ps => (c :: p) :: ps

/-- Join pieces with `'\n'`, like Python `'\n'.join(...)`. -/
def joinNl : List (List Char) → List Char
  | [] => []
  | [p] => p
  | p :: q :: qs => p ++ '\n' :: joinNl (q :: qs)

theorem joinNl_cons {p : List Char} {ps : List (List Char)} (h : ps ≠ []) :
    joinNl (p :: ps) = p ++ '\n' :: joinNl ps := by
  match ps with
  | [] => exact absurd rfl h
  | q :: qs => rfl

theorem splitNl_ne_nil (cs : List Char) : splitNl cs ≠ [] := by
  induction cs with
  | nil => simp [splitNl]
  | cons c cs ih =>
    rw [splitNl]
    by_cases h : c = '\n'
    · simp [h]
    · rw [if_neg h]
      match hs : splitNl cs with
      | [] => simp
      | p :: ps => simp

theorem splitNl_no_nl (cs : List Char) : ∀ p ∈ splitNl cs, '\n' ∉ p := by
  induction cs with
  | nil => simp [splitNl]
  | cons c cs ih =>
    intro p hp
    rw [splitNl] at hp
    by_cases h : c = '\n'
    · rw [if_pos h] at hp
      rcases List.mem_cons.mp hp with h2 | h2
      · rw [h2]
        exact List.not_mem_nil _
      · exact ih p h2
    · rw [if_neg h] at hp
      match hs : splitNl cs with
      | [] => exact absurd hs (splitNl_ne_nil cs)
      | q :: qs =>
        rw [hs] at hp
        change p ∈ (c :: q) :: qs at hp
        rcases List.mem_cons.mp hp with h2 | h2
        · intro hmem
          rw [h2] at hmem
          rcases List.mem_cons.mp hmem with h3 | h3
          · exact h h3.symm
          · exact ih q (hs ▸ List.mem_cons_self _ _) h3
        · exact ih p (hs ▸ List.mem_cons_of_mem _ h2)

theorem joinNl_splitNl (cs : List Char) : joinNl (splitNl cs) = cs := by
  induction cs with
  | nil => rfl
  | cons c cs ih =>
    rw [splitNl]
    by_cases h : c = '\n'
    · rw [if_pos h]
      rw [joinNl_cons (splitNl_ne_nil cs), ih, h]
      rfl
    · rw [if_neg h]
      match hs : splitNl cs with
      | [] => exact absurd hs (splitNl_ne_nil cs)
      | [q] =>
        rw [hs] at ih
        simp only [joinNl] at ih ⊢
        rw [ih]
      | q :: r :: rs =>
        rw [hs] at ih
        rw [joinNl_cons (by simp)] at ih ⊢
        simp only [List.cons_append]
        rw [ih]

theorem splitNl_of_no_nl {a : List Char} (h : '\n' ∉ a) : splitNl a = [a] := by
  induction a with
  | nil => rfl
  | cons c cs ih =>
    have hc : c ≠ '\n' := fun hc => h (hc ▸ List.mem_cons_self _ _)
    have hcs : '\n' ∉ cs := fun h2 => h (List.mem_cons_of_mem _ h2)
    rw [splitNl, if_neg hc, ih hcs]

theorem splitNl_append_cons {a : List Char} (b : List Char) (h : '\n' ∉ a) :
    splitNl (a ++ '\n' :: b) = a :: splitNl b := by
  induction a with
  | nil => simp [splitNl]
  | cons c cs ih =>
    have hc : c ≠ '\n' := fun hc => h (hc ▸ List.mem_cons_self _ _)
    have hcs : '\n' ∉ cs := fun h2 => h (List.mem_cons_of_mem _ h2)
    rw [List.cons_append, splitNl, if_neg hc, ih hcs]

theorem splitNl_joinNl_append {ps : List (List Char)} (b : List Char)
    (hne : ps ≠ []) (hnl : ∀ p ∈ ps, '\n' ∉ p) :
    splitNl (joinNl ps ++ '\n' :: b) = ps ++ splitNl b := by
  induction ps with
  | nil => exact absurd rfl hne
  | cons p ps ih =>
    match ps with
    | [] =>
      simp only [joinNl]
      rw [splitNl_append_cons b (hnl p (List.mem_cons_self _ _))]
      rfl
    | q :: qs =>
      rw [joinNl_cons (by simp), List.append_assoc, List.cons_append]
      rw [splitNl_append_cons _ (hnl p (List.mem_cons_self _ _))]
      rw [ih (by simp) (fun r hr => hnl r (List.mem_cons_of_mem _ hr))]
      rfl

theorem splitNl_joinNl {ps : List (List Char)}
    (hne : ps ≠ []) (hnl : ∀ p ∈ ps, '\n' ∉ p) :
    splitNl (joinNl ps) = ps := by
  induction ps with
  | nil => exact absurd rfl hne
  | cons p ps ih =>
    match ps with
    | [] => exact splitNl_of_no_nl (hnl p (List.mem_cons_self _ _))
    | q :: qs =>
      rw [joinNl_cons (by simp)]
      rw [splitNl_append_cons _ (hnl p (List.mem_cons_self _ _))]
      rw [ih (by simp) (fun r hr => hnl r (List.mem_cons_of_mem _ hr))]

/-- Python `str.strip()` (both-ends whitespace trim). -/
def pyStrip (s : List Char) : List Char :=
  ((s.dropWhile Char.isWhitespace).reverse.dropWhile Char.isWhitespace).reverse

/-- `meta_dict[key] = value` with Python dict semantics: an existing key
keeps its position and gets the new value; a new key is appended. -/
def dictInsert (d : List (String × String)) (k v : String) : List (String × String) :=
  match d with
  | [] => [(k, v)]
  | (k0, v0) :: rest =>
    if k0 = k then (k, v) :: rest else (k0, v0) :: dictInsert rest k v

/-- The loop body of `parse_metadata` (`src/main.py` lines 260-264) over
already-split lines: a line containing a colon is split at its FIRST colon
(`line.split(':', 1)`), both sides stripped. -/
def parse_metadata_lines (lines : List (List Char)) : List (String × String) :=
  lines.foldl
    (fun d line =>
      if line.contains ':' then
        let key := pyStrip (line.takeWhile (fun c => c ≠ ':'))
        let value := pyStrip ((line.dropWhile (fun c => c ≠ ':')).drop 1)
        dictInsert d (String.mk key) (String.mk value)
      else d)
    []

/-- `parse_metadata` (`src/main.py` lines 255-265): split the metadata
block on newlines and collect `key: value` pairs. -/
def parse_metadata (metadata : String) : List (String × String) :=
  parse_metadata_lines (splitNl metadata.data)

/-- Scan for the closing front-matter delimiter.  `pieces` is the list of
newline-split pieces after the opening `---`; the piece at (relative)
index `j` closes the block when it equals `---`, its relative index is at
least 1 (the regex `^---\n([\s\S]*?)\n---\n` cannot reuse the opening
delimiter's newline as the closing pattern's leading newline), and it is
followed by a newline (it is not the final piece: `j + 2 ≤ limit` with
`limit` the number of pieces).  The scan returns the first such piece,
matching the non-greedy `*?`. -/
def findCloseAux (pieces : List (List Char)) (j : Nat) (limit : Nat) : Option Nat :=
  match pieces with
  | [] => none
  | p :: ps =>
    if p = "---".data ∧ 1 ≤ j ∧ j + 2 ≤ limit then some j
    else findCloseAux ps (j + 1) limit

/-- The front-matter match of `read_metadata` (`src/main.py` line 248,
`re.match(r'^---\n([\s\S]*?)\n---\n', content)`): the interior pieces of
the matched group, or `none` when the regex does not match. -/
def read_metadata_match (content : String) : Option (List (List Char)) :=
  match splitNl content.data with
  | [] => none
  | p0 :: rest =>
    if p0 = "---".data then
      match findCloseAux rest 0 rest.length with
      | none => none
      | some j => some (rest.take j)
    else none

/-- `read_metadata` (`src/main.py` lines 242-252): parse the matched
front-matter group, or return the empty mapping when there is no match. -/
def read_metadata (content : String) : List (String × String) :=
  match read_metadata_match content with
  | some interior => parse_metadata (String.mk (joinNl interior))
  | none => []

/-- The metadata extraction as claim C5 words it: a block delimited by a
first line equal to `---` and ANY later line equal to `---` (the
earliest), with no further requirement on the closing line. -/
def specClaimMetadata (content : String) : List (String × String) :=
  match splitNl content.data with
  | [] => []
  | p0 :: rest =>
    if p0 = "---".data then
      match rest.findIdx? (fun p => p = "---".data) with
      | none => []
      | some j => parse_metadata_lines (rest.take j)
    else []

theorem findCloseAux_append {xs : List (List Char)} (r : List (List Char))
    (h : ∀ x ∈ xs, x ≠ "---".data) :
    ∀ (j L : Nat), findCloseAux (xs ++ r) j L = findCloseAux r (j + xs.length) L := by
  induction xs with
  | nil => intro j L; simp
  | cons x xs ih =>
    intro j L
    rw [List.cons_append, findCloseAux]
    rw [if_neg (fun hcon => h x (List.mem_cons_self _ _) hcon.1)]
    rw [ih (fun y hy => h y (List.mem_cons_of_mem _ hy)) (j + 1) L]
    congr 1
    simp only [List.length_cons]
    omega

theorem findCloseAux_cons_self (r : List (List Char)) {j L : Nat}
    (h1 : 1 ≤ j) (h2 : j + 2 ≤ L) :
    findCloseAux ("---".data :: r) j L = some j := by
  rw [findCloseAux, if_pos ⟨rfl, h1, h2⟩]

/-- C5 (amended): `read_metadata` returns the mapping parsed from the
block at offset 0 delimited by a first line `---` and the earliest
subsequent line `---` that both lies beyond the line immediately following
the opener's newline and is itself followed by a newline — i.e. the
content decomposes as `---\n<meta>\n---\n<rest>`; interior lines with a
colon split at the first colon, both sides trimmed.  Content not starting
with `---\n` yields the empty mapping, without error.  (The claim's
reading, where any later line `---` closes the block even at end of file,
is refuted by `claim_C5_counterexample`.) -/
theorem claim_C5 :
    (∀ (meta body : String), "---".data ∉ splitNl meta.data →
      read_metadata ("---\n" ++ meta ++ "\n---\n" ++ body) = parse_metadata meta) ∧
    (∀ content : String, content.data.take 4 ≠ "---\n".data →
      read_metadata content = []) := by
  constructor
  · intro meta body hmeta
    have hnomem : ∀ x ∈ splitNl meta.data, x ≠ "---".data := by
      intro x hx hcon
      exact hmeta (hcon ▸ hx)
    have hdata : ("---\n" ++ meta ++ "\n---\n" ++ body).data
        = "---".data ++ '\n' :: (meta.data ++ '\n' :: ("---".data ++ '\n' :: body.data)) := by
      simp [String.data_append]
    have hsplit : splitNl ("---\n" ++ meta ++ "\n---\n" ++ body).data
        = "---".data :: (splitNl meta.data ++ "---".data :: splitNl body.data) := by
      rw [hdata]
      rw [splitNl_append_cons _ (by decide)]
      congr 1
      conv_lhs => rw [← joinNl_splitNl meta.data]
      rw [splitNl_joinNl_append _ (splitNl_ne_nil _) (splitNl_no_nl _)]
      congr 1
    have hlen1 : 1 ≤ (splitNl meta.data).length := by
      have := splitNl_ne_nil meta.data
      cases h : splitNl meta.data with
      | nil => exact absurd h this
      | cons a b => simp
    have hlen2 : 1 ≤ (splitNl body.data).length := by
      have := splitNl_ne_nil body.data
      cases h : splitNl body.data with
      | nil => exact absurd h this
      | cons a b => simp
    have hfind : findCloseAux (splitNl meta.data ++ "---".data :: splitNl body.data) 0
        (splitNl meta.data ++ "---".data :: splitNl body.data).length
        = some (splitNl meta.data).length := by
      rw [findCloseAux_append _ hnomem]
      rw [findCloseAux_cons_self _ (by omega)
        (by simp only [List.length_append, List.length_cons, Nat.zero_add]; omega)]
      simp
    have hmatch : read_metadata_match ("---\n" ++ meta ++ "\n---\n" ++ body)
        = some (splitNl meta.data) := by
      unfold read_metadata_match
      rw [hsplit]
      simp only [if_pos rfl, hfind]
      simp
    unfold read_metadata
    rw [hmatch]
    show parse_metadata (String.mk (joinNl (splitNl meta.data))) = parse_metadata meta
    unfold parse_metadata
    congr 1
    show splitNl (joinNl (splitNl meta.data)) = splitNl meta.data
    exact splitNl_joinNl (splitNl_ne_nil _) (splitNl_no_nl _)
  · intro content h4
    suffices h : read_metadata_match content = none by
      unfold read_metadata
      rw [h]
    unfold read_metadata_match
    cases hsplit : splitNl content.data with
    | nil => rfl
    | cons p0 rest =>
      by_cases hp0 : p0 = "---".data
      · cases hrest : rest with
        | nil => simp [findCloseAux]
        | cons q qs =>
          exfalso
          apply h4
          have hjoin := joinNl_splitNl content.data
          rw [hsplit, hrest, hp0, joinNl_cons (by simp)] at hjoin
          rw [← hjoin]
          rfl
      · simp [hp0]

/-- Counterexample to C5 as stated: the content `---\ntitle: A\n---` has a
leading line `---` and a later line `---`, so the claim's rule yields the
mapping `{title: A}`; the code's regex requires a newline after the
closing delimiter and does not match, so `read_metadata` returns the
empty mapping. -/
theorem claim_C5_counterexample :
    read_metadata "---\ntitle: A\n---" = [] ∧
    specClaimMetadata "---\ntitle: A\n---" = [("title", "A")] := by
  constructor <;> decide

/-- Witness for C5 at the spec's round-trip example. -/
theorem claim_C5_witness :
    read_metadata
        ("---\n" ++ "title: A\ndate: 2024-02-03T14:44:42+08:00" ++ "\n---\n" ++ "body")
      = parse_metadata "title: A\ndate: 2024-02-03T14:44:42+08:00" ∧
    parse_metadata "title: A\ndate: 2024-02-03T14:44:42+08:00"
      = [("title", "A"), ("date", "2024-02-03T14:44:42+08:00")] ∧
    read_metadata "no front matter here" = [] :=
  ⟨claim_C5.1 _ _ (by decide), by decide, claim_C5.2 _ (by decide)⟩

/-- Python `str.splitlines()` restricted to `\n` and `\r\n` line breaks
(the only break sequences the repository's contents use): split at `\n`,
drop a final empty piece (no line after a trailing newline), and strip one
trailing `\r` from each piece. -/
def pySplitlines (cs : List Char) : List (List Char) :=
  let ps := splitNl cs
  let ps2 := if ps.getLast? = some [] then ps.dropLast else ps
  ps2.map (fun p => if p.getLast? = some '\r' then p.dropLast else p)

/-- `remove_metadata` (`src/main.py` lines 111-121): if the first line is
`---` and some later line is `---`, drop everything up to and including
the first such later line; otherwise return the input unchanged (the
Python `return md_content` returns the enclosing variable, which holds the
same string that was passed in). -/
def remove_metadata (content : String) : String :=
  match pySplitlines content.data with
  | [] => content
  | l0 :: rest =>
    if l0 = "---".data then
      match rest.findIdx? (fun l => l == "---".data) with
      | some i => String.mk (joinNl (rest.drop (i + 1)))
      | none => content
    else content

/-- Whether `remove_metadata` takes its stripping branch (`src/main.py`
lines 117-120): first line `---` and some later line `---`. -/
def remove_metadata_strips (content : String) : Bool :=
  match pySplitlines content.data with
  | [] => false
  | l0 :: rest => l0 == "---".data && rest.any (fun l => l == "---".data)

theorem findCloseAux_some {ps : List (List Char)} :
    ∀ {j0 L j : Nat}, findCloseAux ps j0 L = some j →
      j0 ≤ j ∧ ps[j - j0]? = some ("---".data) ∧ 1 ≤ j ∧ j + 2 ≤ L := by
  induction ps with
  | nil => intro j0 L j h; simp [findCloseAux] at h
  | cons p ps ih =>
    intro j0 L j h
    rw [findCloseAux] at h
    by_cases hc : p = "---".data ∧ 1 ≤ j0 ∧ j0 + 2 ≤ L
    · rw [if_pos hc] at h
      cases h
      refine ⟨Nat.le_refl _, ?_, hc.2.1, hc.2.2⟩
      simp [hc.1]
    · rw [if_neg hc] at h
      obtain ⟨h1, h2, h3, h4⟩ := ih h
      refine ⟨by omega, ?_, h3, h4⟩
      have hj : j - j0 = (j - (j0 + 1)) + 1 := by omega
      rw [hj]
      simpa using h2

/-- C10 (amended): whenever `read_metadata` recognizes a leading
front-matter block, `remove_metadata` strips one; the converse fails:
`remove_metadata` also strips blocks whose closing `---` is the final
line without a trailing newline, which the extractor's regex rejects. -/
theorem claim_C10 (content : String) (interior : List (List Char))
    (h : read_metadata_match content = some interior) :
    remove_metadata_strips content = true := by
  unfold read_metadata_match at h
  cases hsplit : splitNl content.data with
  | nil => rw [hsplit] at h; exact absurd h (by simp)
  | cons p0 rest =>
    rw [hsplit] at h
    replace h : (if p0 = "---".data then
        (match findCloseAux rest 0 rest.length with
          | none => none
          | some j => some (List.take j rest))
        else none) = some interior := h
    by_cases hp0 : p0 = "---".data
    · rw [if_pos hp0] at h
      cases hfind : findCloseAux rest 0 rest.length with
      | none => rw [hfind] at h; exact absurd h (by simp)
      | some j =>
        obtain ⟨-, hget, hj1, hj2⟩ := findCloseAux_some hfind
        simp only [Nat.sub_zero] at hget
        have hrestne : rest ≠ [] := by
          intro hr
          rw [hr] at hj2
          simp at hj2
        -- the head `---` survives the trailing-empty-piece drop
        have hsplit2 : (if ("---".data :: rest).getLast? = some []
              then ("---".data :: rest).dropLast else ("---".data :: rest))
            = "---".data :: (if ("---".data :: rest).getLast? = some []
              then rest.dropLast else rest) := by
          by_cases hlast : ("---".data :: rest).getLast? = some []
          · rw [if_pos hlast, if_pos hlast]
            cases hrest : rest with
            | nil => exact absurd hrest hrestne
            | cons q qs => rw [List.dropLast_cons₂]
          · rw [if_neg hlast, if_neg hlast]
        -- the closing `---` is a member of the kept tail
        have hmem : "---".data ∈ (if ("---".data :: rest).getLast? = some []
            then rest.dropLast else rest) := by
          by_cases hlast : ("---".data :: rest).getLast? = some []
          · rw [if_pos hlast]
            have hj3 : j < rest.length - 1 := by omega
            have hg2 : rest.dropLast[j]? = some ("---".data) := by
              rw [List.getElem?_dropLast, if_pos hj3]
              exact hget
            obtain ⟨hb, hx⟩ := List.getElem?_eq_some.mp hg2
            have hmem0 := List.getElem_mem hb
            rw [hx] at hmem0
            exact hmem0
          · rw [if_neg hlast]
            obtain ⟨hb, hx⟩ := List.getElem?_eq_some.mp hget
            have hmem0 := List.getElem_mem hb
            rw [hx] at hmem0
            exact hmem0
        have hstrip3 : (if ("---".data).getLast? = some '\r'
            then ("---".data).dropLast else "---".data) = "---".data := by decide
        have hlines : pySplitlines content.data
            = "---".data :: ((if ("---".data :: rest).getLast? = some []
                then rest.dropLast else rest).map
                (fun p => if p.getLast? = some '\r' then p.dropLast else p)) := by
          show ((if (splitNl content.data).getLast? = some []
              then (splitNl content.data).dropLast
              else splitNl content.data).map
              (fun p => if p.getLast? = some '\r' then p.dropLast else p)) = _
          rw [hsplit, hp0, hsplit2, List.map_cons]
          rw [show (if ("---".data).getLast? = some '\r'
            then ("---".data).dropLast else "---".data) = "---".data from hstrip3]
        unfold remove_metadata_strips
        rw [hlines]
        simp only [beq_self_eq_true, Bool.true_and]
        rw [List.any_eq_true]
        exact ⟨"---".data, List.mem_map.mpr ⟨"---".data, hmem, by decide⟩, by simp⟩
    · rw [if_neg hp0] at h
      exact absurd h (by simp)

/-- Counterexample to C10 as stated: on `---\ntitle: A\n---` (closing
delimiter at end of file, no trailing newline) `remove_metadata` strips
the block — the result is the empty string — while `read_metadata`
recognizes no block.  The two recognizers disagree. -/
theorem claim_C10_counterexample :
    remove_metadata_strips "---\ntitle: A\n---" = true ∧
    remove_metadata "---\ntitle: A\n---" = "" ∧
    read_metadata_match "---\ntitle: A\n---" = none := by
  refine ⟨by decide, ?_, by decide⟩
  rfl

/-- Witness for C10 at a content whose block the extractor recognizes. -/
theorem claim_C10_witness :
    remove_metadata_strips "---\na: b\n---\nbody" = true :=
  claim_C10 "---\na: b\n---\nbody" ["a: b".data] (by decide)

/-! ### The category sorter (`sort_categories`, `src/main.py` lines
156-173) and the listing sort (line 214). -/

/-- One listing entry (`src/main.py` lines 208-213). -/
structure CatItem where
  type : String
  name : String
  href : List String
  metadata : Option (List (String × String))
deriving DecidableEq

/-- Days since 1970-01-01 of a civil date (standard civil-from-days
inverse; all intermediate divisions act on non-negative values for years
of the supported 4-digit form, so `Int` truncating division agrees with
floor division). -/
def daysFromCivil (y m d : Int) : Int :=
  let y2 := if m ≤ 2 then y - 1 else y
  let era := (if 0 ≤ y2 then y2 else y2 - 399) / 400
  let yoe := y2 - era * 400
  let mp := (m + 9) % 12
  let doy := (153 * mp + 2) / 5 + d - 1
  let doe := yoe * 365 + yoe / 4 - yoe / 100 + doy
  era * 146097 + doe - 719468

/-- UTF-8 encoding of one character.  CPython's C `fromisoformat` parser
(`Modules/_datetimemodule.c`, the implementation that actually runs) works
on the UTF-8 bytes of the string, so the model does too. -/
def utf8Bytes (c : Char) : List Nat :=
  let n := c.toNat
  if n < 128 then [n]
  else if n < 2048 then [192 + n / 64, 128 + n % 64]
  else if n < 65536 then [224 + n / 4096, 128 + (n / 64) % 64, 128 + n % 64]
  else [240 + n / 262144, 128 + (n / 4096) % 64, 128 + (n / 64) % 64, 128 + n % 64]

/-- The UTF-8 bytes of a string. -/
def pyBytes (s : String) : List Nat := (s.data.map utf8Bytes).flatten

/-- ASCII digit test on a byte. -/
def isDigitB (b : Nat) : Bool := decide (48 ≤ b ∧ b ≤ 57)

/-- `parse_digits`: exactly `n` ASCII digits starting at index `pos`,
accumulated left to right.  A read past the end fails, as in C a read past
the region hits the NUL terminator or a timezone marker, neither a digit. -/
def digitsAtAux (t : List Nat) : Nat → Nat → Nat → Option Nat
  | _, 0, acc => some acc
  | pos, n+1, acc =>
    match t[pos]? with
    | some b => if isDigitB b then digitsAtAux t (pos+1) n (acc * 10 + (b - 48)) else none
    | none => none

/-- `parse_digits` at a position (see `digitsAtAux`). -/
def digitsAt (t : List Nat) (pos n : Nat) : Option Nat := digitsAtAux t pos n 0

/-- `_find_isoformat_datetime_separator`: byte length of the date portion,
decided from the shapes `YYYY-MM-DD` (10), `YYYYMMDD` (8), `YYYY-Www` (8),
`YYYYWww` (7), `YYYY-Www-D` (10), `YYYYWwwD` (8); `45 = '-'`, `87 = 'W'`.
Only called with at least 7 bytes.  In the dashed-week case a digit at
index 10 resolves the ambiguity in favour of `YYYY-Www` (so
`2020-W01-01T01:01` is NOT parsed as week 1 day 1); in the basic-week case
the parity of the run of digits from index 7 decides. -/
def find_isoformat_datetime_separator (b : List Nat) : Option Nat :=
  let L := b.length
  if L == 7 then some 7
  else if b.getD 4 0 == 45 then
    if b.getD 5 0 == 87 then
      if L > 8 ∧ b.getD 8 0 == 45 then
        if L == 9 then none
        else if L > 10 ∧ isDigitB (b.getD 10 0) then some 8
        else some 10
      else some 8
    else some 10
  else if b.getD 4 0 == 87 then
    let idx := 7 + ((b.drop 7).takeWhile isDigitB).length
    if idx < 9 then some idx
    else if idx % 2 == 0 then some 7 else some 8
  else some 8

/-- `_is_leap`. -/
def is_leap (y : Int) : Bool := y % 4 == 0 && (y % 100 != 0 || y % 400 == 0)

/-- `_days_in_month`. -/
def days_in_month (y m : Int) : Int :=
  if m == 2 then (if is_leap y then 29 else 28)
  else if m == 4 || m == 6 || m == 9 || m == 11 then 30
  else 31

/-- Civil date of a day count since 1970-01-01 (`_ord2ymd`; the standard
inverse of `daysFromCivil`).  Every ordinal reachable from the ISO-week
conversion is nonnegative after the epoch shift (ISO years are at least 1),
where truncating and floor division agree. -/
def civilFromDays (z0 : Int) : Int × Int × Int :=
  let z := z0 + 719468
  let era := (if 0 ≤ z then z else z - 146096) / 146097
  let doe := z - era * 146097
  let yoe := (doe - doe / 1460 + doe / 36524 - doe / 146096) / 365
  let y := yoe + era * 400
  let doy := doe - (365 * yoe + yoe / 4 - yoe / 100)
  let mp := (5 * doy + 2) / 153
  let d := doy - (153 * mp + 2) / 5 + 1
  let m := if mp < 10 then mp + 3 else mp - 9
  (if m ≤ 2 then y + 1 else y, m, d)

/-- `_isoweek_to_gregorian`: ISO year/week/day to a civil date.  Week 53
exists only in years starting on a Thursday, or leap years starting on a
Wednesday; `daysFromCivil y 1 1 + 719163` is the Python ordinal of Jan 1
(`% 7`: `1` = Monday, as ordinal 1 = 0001-01-01, a Monday), and
`+ 719162` the ordinal minus one used for the week-1-Monday computation. -/
def isoweek_to_gregorian (year week day : Nat) : Option (Int × Int × Int) :=
  if ¬ (1 ≤ year ∧ year ≤ 9999) then none
  else
    let days0 := daysFromCivil year 1 1
    let weekOk : Bool :=
      if 0 < week ∧ week < 53 then true
      else if week == 53 then
        let firstWeekday := (days0 + 719163) % 7
        decide (firstWeekday = 4 ∨ (firstWeekday = 3 ∧ is_leap year = true))
      else false
    if weekOk then
      if 0 < day ∧ day < 8 then
        let firstday := days0 + 719162
        let firstweekday := (firstday + 7) % 7
        let week1monday :=
          if 3 < firstweekday then firstday - firstweekday + 7
          else firstday - firstweekday
        some (civilFromDays
          (week1monday + ((week : Int) - 1) * 7 + ((day : Int) - 1) - 719162))
      else none
    else none

/-- C `parse_isoformat_date`: 4-digit year; then either a week date
(`87 = 'W'`) with 2-digit week and optional 1-digit day (separated by a
dash exactly when the year was), or 2-digit month and day with consistent
dash separators.  `dlen` is the date-portion length from the separator
finder; range checks happen later in the constructor. -/
def parse_isoformat_date (b : List Nat) (dlen : Nat) : Option (Int × Int × Int) :=
  match digitsAt b 0 4 with
  | none => none
  | some year =>
    let hasSep := b.getD 4 0 == 45
    let pos := if hasSep then 5 else 4
    if b.getD pos 0 == 87 then
      match digitsAt b (pos+1) 2 with
      | none => none
      | some weekno =>
        let pos2 := pos + 3
        if pos2 < dlen then
          if hasSep then
            if b.getD pos2 0 == 45 then
              match digitsAt b (pos2+1) 1 with
              | none => none
              | some dayno => isoweek_to_gregorian year weekno dayno
            else none
          else
            match digitsAt b pos2 1 with
            | none => none
            | some dayno => isoweek_to_gregorian year weekno dayno
        else isoweek_to_gregorian year weekno 1
    else
      match digitsAt b pos 2 with
      | none => none
      | some month =>
        let pos2 := pos + 2
        if hasSep then
          if b.getD pos2 0 == 45 then
            match digitsAt b (pos2+1) 2 with
            | none => none
            | some day => some ((year : Int), (month : Int), (day : Int))
          else none
        else
          match digitsAt b pos2 2 with
          | none => none
          | some day => some ((year : Int), (month : Int), (day : Int))

/-- The `HH[:?MM[:?SS]]` loop of C `parse_hh_mm_ss_ff` over the substring
`t` (the portion before the timezone marker, or the whole time string).
After each 2-digit component the next byte `c` is consumed; in C,
`if (p >= p_end) return c != 0` runs BEFORE any other dispatch on `c`, so
hitting the end of the substring returns immediately: with the virtual
byte past the substring (`tzf = true` when a timezone marker follows,
else NUL) this is `rv = 1` exactly when a non-NUL byte was consumed last.
`58/46/44 = ':'/'.'/','`; without separators (`hasSep = false`) the byte
after a component is re-read as digits.  `Sum.inr pos` hands over to the
fraction parser. -/
def hmsLoop (t : List Nat) (tzf : Bool) :
    Nat → Nat → Bool → Bool → List Nat → Option (List Nat × (Nat ⊕ Nat))
  | 0, pos, _, _, acc => some (acc, Sum.inr pos)
  | rem+1, pos, hasSep, first, acc =>
    match digitsAt t pos 2 with
    | none => none
    | some v =>
      let acc2 := acc ++ [v]
      let pos2 := pos + 2
      if pos2 == t.length then some (acc2, Sum.inl (if tzf then 1 else 0))
      else
        match t[pos2]? with
        | none => none
        | some c =>
          let hasSep2 := if first then c == 58 else hasSep
          if t.length ≤ pos2 + 1 then some (acc2, Sum.inl 1)
          else if hasSep2 && c == 58 then hmsLoop t tzf rem (pos2+1) hasSep2 false acc2
          else if c == 46 || c == 44 then some (acc2, Sum.inr (pos2+1))
          else if !hasSep2 then hmsLoop t tzf rem pos2 hasSep2 false acc2
          else none

/-- C `parse_hh_mm_ss_ff`: the component loop, then the fraction: up to six
digits (padded to microseconds by the correction table); any remaining
bytes yield `rv = 1` unless they are all digits — `rv = 1` is fatal only
when no timezone follows. -/
def parse_hh_mm_ss_ff (t : List Nat) (tzf : Bool) :
    Option (Nat × Nat × Nat × Nat × Nat) :=
  match hmsLoop t tzf 3 0 true true [] with
  | none => none
  | some (acc, Sum.inl rv) => some (acc.getD 0 0, acc.getD 1 0, acc.getD 2 0, 0, rv)
  | some (acc, Sum.inr pos) =>
    let lenRem := t.length - pos
    let toParse := min 6 lenRem
    match digitsAt t pos toParse with
    | none => none
    | some us0 =>
      let us := if toParse < 6
        then us0 * ([100000, 10000, 1000, 100, 10].getD (toParse - 1) 1)
        else us0
      let rv := if (t.drop (pos + toParse)).all isDigitB then 0 else 1
      some (acc.getD 0 0, acc.getD 1 0, acc.getD 2 0, us, rv)

/-- C `parse_isoformat_time`: the timezone starts at the first byte in
`Z + -` (`90/43/45`); the time before it must parse (`rv = 1` is allowed
exactly when a timezone follows); `Z` must be the last byte and means
offset 0; otherwise the offset is parsed with the same component parser
(its own components are NOT range-checked — Python's `timedelta`
normalises them) and must end cleanly (`rv = 0`).  Returns hour, minute,
second, microsecond and the offset in microseconds (`none` = naive). -/
def parse_isoformat_time (t : List Nat) :
    Option (Nat × Nat × Nat × Nat × Option Int) :=
  match t.findIdx? (fun b => b == 90 || b == 43 || b == 45) with
  | none =>
    match parse_hh_mm_ss_ff t false with
    | none => none
    | some (h, mi, s, us, rv) => if rv == 1 then none else some (h, mi, s, us, none)
  | some i =>
    match parse_hh_mm_ss_ff (t.take i) true with
    | none => none
    | some (h, mi, s, us, _) =>
      if t.getD i 0 == 90 then
        if i + 1 == t.length then some (h, mi, s, us, some 0) else none
      else
        match parse_hh_mm_ss_ff (t.drop (i+1)) false with
        | none => none
        | some (th, tm, ts, tus, trv) =>
          if trv == 0 then
            let sign : Int := if t.getD i 0 == 45 then -1 else 1
            some (h, mi, s, us,
              some (sign * ((((th * 3600 + tm * 60 + ts) * 1000000 + tus : Nat) : Int))))
          else none

/-- A parsed `datetime`: calendar fields plus the UTC offset in
microseconds (`none` for a naive datetime). -/
structure PyDatetime where
  year : Int
  month : Int
  day : Int
  hour : Nat
  minute : Nat
  second : Nat
  microsecond : Nat
  tz : Option Int
deriving DecidableEq

/-- The `datetime` and `timezone` constructor range checks: year 1..9999,
month 1..12, day within the month, hour to 23, minute and second to 59,
and a timezone offset strictly below 24 hours in magnitude. -/
def py_datetime_valid (y m d : Int) (h mi sec : Nat) (tz : Option Int) : Bool :=
  decide (1 ≤ y ∧ y ≤ 9999 ∧ 1 ≤ m ∧ m ≤ 12 ∧ 1 ≤ d ∧ d ≤ days_in_month y m ∧
    h ≤ 23 ∧ mi ≤ 59 ∧ sec ≤ 59) &&
  (match tz with
   | none => true
   | some off => decide (off.natAbs < 86400000000))

/-- `datetime.fromisoformat` with the semantics of the CPython 3.11 C
accelerator (the code that runs in the deployed interpreter): at least 7
bytes, a date portion per the separator finder, one arbitrary separator
character (a whole UTF-8 character, skipped by its leading-byte class),
and a time-with-offset portion; then the constructor range checks.
`none` models `ValueError`. -/
def fromisoformat (s : String) : Option PyDatetime :=
  let b := pyBytes s
  if b.length < 7 then none
  else
    match find_isoformat_datetime_separator b with
    | none => none
    | some dlen =>
      match parse_isoformat_date b dlen with
      | none => none
      | some (y, m, d) =>
        let timeRes : Option (Nat × Nat × Nat × Nat × Option Int) :=
          if b.length > dlen then
            let b0 := b.getD dlen 0
            let skip := if b0 < 128 then 1 else if b0 < 224 then 2
              else if b0 < 240 then 3 else 4
            parse_isoformat_time (b.drop (dlen + skip))
          else some (0, 0, 0, 0, none)
        match timeRes with
        | none => none
        | some (h, mi, sec, us, tz) =>
          if py_datetime_valid y m d h mi sec tz then
            some ⟨y, m, d, h, mi, sec, us, tz⟩
          else none

/-- Round `a / b` to the nearest integer, ties to even (`b > 0`). -/
def roundHalfEven (a b : Nat) : Nat :=
  let d := a / b
  let r := a % b
  if 2 * r < b then d
  else if b < 2 * r then d + 1
  else if d % 2 == 0 then d else d + 1

/-- The IEEE-754 binary64 (Python `float`) value nearest to `n / d`
(`n, d > 0`), returned as an exact integer scaled by `2 ^ 128`: the result
is `m * 2 ^ e` with `2 ^ 52 ≤ m < 2 ^ 53` and, for every value in this
development (timestamps at microsecond resolution, so magnitude at least
`2 ^ -72` when nonzero), `e ≥ -125`, hence `value * 2 ^ 128` is an
integer.  The scan finds the exponent `e = k - 200` with
`2 ^ 52 ≤ (n / d) / 2 ^ e < 2 ^ 53`; a round up to `2 ^ 53` carries into
the next exponent. -/
def fp64ScaledPos (n d : Nat) : Int :=
  match (List.range 401).find? (fun k =>
    let a := n * 2 ^ (200 - k)
    let b := d * 2 ^ (k - 200)
    decide (2 ^ 52 * b ≤ a ∧ a < 2 ^ 53 * b)) with
  | none => 0
  | some k =>
    if k < 72 then 0
    else
      let a := n * 2 ^ (200 - k)
      let b := d * 2 ^ (k - 200)
      let m := roundHalfEven a b
      if m == 2 ^ 53 then ((2 ^ 52 : Nat) : Int) * 2 ^ (k - 71)
      else (m : Int) * 2 ^ (k - 72)

/-- The Python `float` of the exact rational `num / den`, as an integer
scaled by `2 ^ 128` (see `fp64ScaledPos`); negation of a float is exact. -/
def pyFloat (num : Int) (den : Nat) : Int :=
  if num = 0 then 0
  else if 0 < num then fp64ScaledPos num.natAbs den
  else -(fp64ScaledPos num.natAbs den)

/-- `datetime.timestamp()`, as the exact value of the returned Python
float scaled by `2 ^ 128`.  For an aware datetime this is the single
correctly-rounded division of the exact microsecond count by `10 ^ 6`.
For a naive datetime the host timezone is modelled as UTC (the build
container's clock): the integer seconds are added to the already-rounded
`microsecond / 10 ^ 6`, a second rounding, exactly as
`seconds + us / 1e6` in C.  A naive datetime on 0001-01-01 raises
`ValueError` (`none`): the local-time fold probe looks one day earlier,
leaving the supported year range. -/
def timestamp (dt : PyDatetime) : Option Int :=
  let days := daysFromCivil dt.year dt.month dt.day
  let S : Int := days * 86400 + dt.hour * 3600 + dt.minute * 60 + dt.second
  match dt.tz with
  | some off => some (pyFloat (S * 1000000 + dt.microsecond - off) 1000000)
  | none =>
    if days == daysFromCivil 1 1 1 then none
    else
      let inner := pyFloat dt.microsecond 1000000
      some (pyFloat (S * 2 ^ 128 + inner) (2 ^ 128))

/-- The fallback `datetime(year=1970, month=1, day=1)` (naive). -/
def epochNaive : PyDatetime := ⟨1970, 1, 1, 0, 0, 0, 0, none⟩

/-- Comparison of Python sort keys: `sort_categories` returns the tuple
`(0, name.lower())` for a category and `(1, -timestamp)` for an article;
first components compare `0 < 1`, so the tuples are encoded as
`.inl name` (category) and `.inr (-timestamp)` (article), with every
`.inl` before every `.inr`.  The timestamp float is an exact integer
scaled by `2 ^ 128` (see `pyFloat`), so integer comparison of the encoded
keys is exactly Python's float comparison. -/
def skeyLe : String ⊕ Int → String ⊕ Int → Bool
  | .inl s, .inl t => s ≤ t
  | .inl _, .inr _ => true
  | .inr _, .inl _ => false
  | .inr i, .inr j => i ≤ j

/-- `sort_categories` (`src/main.py` lines 156-173) as a key computation.
`Except.error` marks the exceptions Python raises while the key is
computed: `AttributeError` when an article's metadata is `None` (then
`item['metadata'].get` fails), `ValueError` from `datetime.fromisoformat`
on a present, non-empty, unparsable `date` — or from `.timestamp()`
itself on a naive 0001-01-01 datetime.  The `Option` is `none` when the
function falls through both branches and returns Python `None` (any other
`type`, e.g. `leaf`).  A missing or empty `date` (both falsy) falls back
to `datetime(year=1970, month=1, day=1)`, whose timestamp is `0` on the
modelled UTC host. -/
def sort_key (it : CatItem) : Except String (Option (String ⊕ Int)) :=
  if it.type = "category" then .ok (some (.inl it.name.toLower))
  else if it.type = "article" then
    match it.metadata with
    | none => .error "AttributeError"
    | some m =>
      match m.lookup "date" with
      | none =>
        match timestamp epochNaive with
        | none => .error "ValueError"
        | some ts => .ok (some (.inr (-ts)))
      | some d =>
        if d = "" then
          match timestamp epochNaive with
          | none => .error "ValueError"
          | some ts => .ok (some (.inr (-ts)))
        else
          match fromisoformat d with
          | none => .error "ValueError"
          | some dt =>
            match timestamp dt with
            | none => .error "ValueError"
            | some ts => .ok (some (.inr (-ts)))
  else .ok none

/-- The key under which an item is compared once key computation
succeeded with a tuple (unreachable default otherwise). -/
def keyD (it : CatItem) : String ⊕ Int :=
  match sort_key it with
  | .ok (some k) => k
  | _ => .inr 0

/-- `categories.sort(key=sort_categories)` (`src/main.py` line 214):
compute every key (a raise aborts); a `None` key raises `TypeError` at the
first comparison, i.e. whenever the listing has at least two entries;
otherwise sort stably, ascending by key. -/
def sort_categories (l : List CatItem) : Except String (List CatItem) := do
  let ks ← l.mapM sort_key
  if 2 ≤ l.length ∧ ks.any Option.isNone then .error "TypeError"
  else .ok (l.mergeSort (fun a b => skeyLe (keyD a) (keyD b)))

/-- The timestamp the sorter effectively uses for an article item (the
Python float scaled by `2 ^ 128`). -/
def dateTs (it : CatItem) : Int :=
  match it.metadata with
  | none => 0
  | some m =>
    match m.lookup "date" with
    | none => 0
    | some d => if d = "" then 0 else ((fromisoformat d).bind timestamp).getD 0

theorem skeyLe_trans (a b c : String ⊕ Int)
    (h1 : skeyLe a b) (h2 : skeyLe b c) : skeyLe a c := by
  cases a <;> cases b <;> cases c <;> simp_all [skeyLe] <;> exact le_trans h1 h2

theorem skeyLe_total (a b : String ⊕ Int) : skeyLe a b || skeyLe b a := by
  cases a <;> cases b <;> simp [skeyLe] <;> exact le_total _ _

theorem sort_key_category {it : CatItem} (h : it.type = "category") :
    sort_key it = .ok (some (.inl it.name.toLower)) := by
  unfold sort_key
  rw [if_pos h]

theorem sort_key_article_date {it : CatItem} {m : List (String × String)}
    {d : String} {dt : PyDatetime} {ts : Int} (h : it.type = "article")
    (hm : it.metadata = some m) (hd : m.lookup "date" = some d) (hne : d ≠ "")
    (hp : fromisoformat d = some dt) (ht : timestamp dt = some ts) :
    sort_key it = .ok (some (.inr (-ts))) := by
  unfold sort_key
  rw [if_neg (by rw [h]; decide), if_pos h]
  simp only [hm, hd, if_neg hne, hp, ht]

theorem sort_key_article_missing {it : CatItem} {m : List (String × String)}
    (h : it.type = "article") (hm : it.metadata = some m)
    (hd : m.lookup "date" = none) :
    sort_key it = .ok (some (.inr (0 : Int))) := by
  unfold sort_key
  rw [if_neg (by rw [h]; decide), if_pos h]
  simp only [hm, hd]
  rfl

theorem sort_key_article_unparsable {it : CatItem} {m : List (String × String)}
    {d : String} (h : it.type = "article") (hm : it.metadata = some m)
    (hd : m.lookup "date" = some d) (hne : d ≠ "") (hp : fromisoformat d = none) :
    sort_key it = .error "ValueError" := by
  unfold sort_key
  rw [if_neg (by rw [h]; decide), if_pos h]
  simp only [hm, hd, if_neg hne, hp]

theorem sort_key_other {it : CatItem} (h1 : it.type ≠ "category")
    (h2 : it.type ≠ "article") : sort_key it = .ok none := by
  unfold sort_key
  rw [if_neg h1, if_neg h2]

theorem keyD_category {it : CatItem} (h : it.type = "category") :
    keyD it = .inl it.name.toLower := by
  unfold keyD
  rw [sort_key_category h]

theorem keyD_article_date {it : CatItem} {m : List (String × String)}
    {d : String} {dt : PyDatetime} {ts : Int} (h : it.type = "article")
    (hm : it.metadata = some m) (hd : m.lookup "date" = some d) (hne : d ≠ "")
    (hp : fromisoformat d = some dt) (ht : timestamp dt = some ts) :
    keyD it = .inr (-ts) := by
  unfold keyD
  rw [sort_key_article_date h hm hd hne hp ht]

theorem keyD_article_missing {it : CatItem} {m : List (String × String)}
    (h : it.type = "article") (hm : it.metadata = some m)
    (hd : m.lookup "date" = none) : keyD it = .inr 0 := by
  unfold keyD
  rw [sort_key_article_missing h hm hd]

theorem dateTs_article_date {it : CatItem} {m : List (String × String)}
    {d : String} {dt : PyDatetime} {ts : Int} (hm : it.metadata = some m)
    (hd : m.lookup "date" = some d) (hne : d ≠ "") (hp : fromisoformat d = some dt)
    (ht : timestamp dt = some ts) :
    dateTs it = ts := by
  unfold dateTs
  simp only [hm, hd, if_neg hne, hp, Option.some_bind, ht]
  rfl

theorem mapM_sort_key_ok : ∀ {l : List CatItem},
    (∀ it ∈ l, ∃ k, sort_key it = .ok (some k)) →
    ∃ ks, l.mapM sort_key = .ok ks ∧ ks.any Option.isNone = false := by
  intro l
  induction l with
  | nil => intro _; exact ⟨[], rfl, rfl⟩
  | cons a l ih =>
    intro h
    obtain ⟨k, hk⟩ := h a (List.mem_cons_self _ _)
    obtain ⟨ks, hks, hany⟩ := ih (fun it hit => h it (List.mem_cons_of_mem _ hit))
    refine ⟨some k :: ks, ?_, by simp [hany]⟩
    rw [List.mapM_cons, hk, hks]
    rfl

theorem mapM_sort_key_error : ∀ {l : List CatItem} {it : CatItem} {e : String},
    it ∈ l → sort_key it = .error e → ∃ e2, l.mapM sort_key = .error e2 := by
  intro l
  induction l with
  | nil => intro it e h; exact absurd h (List.not_mem_nil _)
  | cons a l ih =>
    intro it e hmem herr
    cases hka : sort_key a with
    | error e0 =>
      exact ⟨e0, by rw [List.mapM_cons, hka]; rfl⟩
    | ok k =>
      rcases List.mem_cons.mp hmem with heq | hmem2
      · rw [heq] at herr
        rw [hka] at herr
        exact absurd herr (fun hcon => Except.noConfusion hcon)
      · obtain ⟨e2, he2⟩ := ih hmem2 herr
        exact ⟨e2, by rw [List.mapM_cons, hka, he2]; rfl⟩

/-- A successful listing sort is a permutation of the input, ascending in
the Python key order. -/
theorem sort_categories_ok {l l2 : List CatItem}
    (h : sort_categories l = .ok l2) :
    l2.Perm l ∧ l2.Pairwise (fun a b => skeyLe (keyD a) (keyD b) = true) := by
  unfold sort_categories at h
  cases hks : l.mapM sort_key with
  | error e =>
    rw [hks] at h
    exact absurd h (fun hcon => Except.noConfusion hcon)
  | ok ks =>
    rw [hks] at h
    replace h : (if 2 ≤ l.length ∧ ks.any Option.isNone = true then
        (Except.error "TypeError" : Except String (List CatItem))
      else .ok (l.mergeSort (fun a b => skeyLe (keyD a) (keyD b)))) = .ok l2 := h
    by_cases hc : 2 ≤ l.length ∧ ks.any Option.isNone = true
    · rw [if_pos hc] at h
      exact absurd h (fun hcon => Except.noConfusion hcon)
    · rw [if_neg hc] at h
      have hl2 : l2 = l.mergeSort (fun a b => skeyLe (keyD a) (keyD b)) := by
        cases h
        rfl
      rw [hl2]
      refine ⟨List.mergeSort_perm l _, ?_⟩
      exact List.sorted_mergeSort
        (fun a b c h1 h2 => skeyLe_trans (keyD a) (keyD b) (keyD c) h1 h2)
        (fun a b => skeyLe_total (keyD a) (keyD b)) l

/-- C3: for every listing of category and article entries in which each
article carries a present, non-empty `date` accepted by
`datetime.fromisoformat` and convertible by `.timestamp()`, the sorter
succeeds and orders the listing so that every category precedes every
article, the categories ascend by case-insensitive display name, and the
articles descend by their parsed date (compared as the Python floats the
code compares). -/
theorem claim_C3 (l : List CatItem)
    (hok : ∀ it ∈ l, it.type = "category" ∨
      (it.type = "article" ∧ ∃ m d dt ts, it.metadata = some m ∧
        m.lookup "date" = some d ∧ d ≠ "" ∧ fromisoformat d = some dt ∧
        timestamp dt = some ts)) :
    ∃ l2, sort_categories l = .ok l2 ∧ l2.Perm l ∧
      l2.Pairwise (fun a b =>
        (a.type = "category" ∧ b.type = "category" ∧ a.name.toLower ≤ b.name.toLower) ∨
        (a.type = "category" ∧ b.type = "article") ∨
        (a.type = "article" ∧ b.type = "article" ∧ dateTs b ≤ dateTs a)) := by
  have hkeys : ∀ it ∈ l, ∃ k, sort_key it = .ok (some k) := by
    intro it hit
    rcases hok it hit with h | ⟨h, m, d, dt, ts, hm, hd, hne, hp, ht⟩
    · exact ⟨_, sort_key_category h⟩
    · exact ⟨_, sort_key_article_date h hm hd hne hp ht⟩
  obtain ⟨ks, hks, hany⟩ := mapM_sort_key_ok hkeys
  have hsort : sort_categories l
      = .ok (l.mergeSort (fun a b => skeyLe (keyD a) (keyD b))) := by
    unfold sort_categories
    rw [hks]
    show (if 2 ≤ l.length ∧ ks.any Option.isNone = true then
        (Except.error "TypeError" : Except String (List CatItem))
      else .ok (l.mergeSort (fun a b => skeyLe (keyD a) (keyD b)))) = _
    rw [if_neg (by rintro ⟨-, h2⟩; rw [hany] at h2; exact Bool.noConfusion h2)]
  obtain ⟨hperm, hpw⟩ := sort_categories_ok hsort
  refine ⟨_, hsort, hperm, ?_⟩
  refine hpw.imp_of_mem ?_
  intro a b ha hb hle
  rcases hok a (hperm.subset ha) with hcatA |
    ⟨hartA, mA, dA, dtA, tsA, hmA, hdA, hneA, hpA, htA⟩
  · rcases hok b (hperm.subset hb) with hcatB | ⟨hartB, _⟩
    · left
      refine ⟨hcatA, hcatB, ?_⟩
      rw [keyD_category hcatA, keyD_category hcatB] at hle
      simpa [skeyLe] using hle
    · exact Or.inr (Or.inl ⟨hcatA, hartB⟩)
  · rcases hok b (hperm.subset hb) with hcatB |
      ⟨hartB, mB, dB, dtB, tsB, hmB, hdB, hneB, hpB, htB⟩
    · exfalso
      rw [keyD_article_date hartA hmA hdA hneA hpA htA, keyD_category hcatB] at hle
      simp [skeyLe] at hle
    · right; right
      refine ⟨hartA, hartB, ?_⟩
      rw [keyD_article_date hartA hmA hdA hneA hpA htA,
        keyD_article_date hartB hmB hdB hneB hpB htB] at hle
      rw [dateTs_article_date hmA hdA hneA hpA htA,
        dateTs_article_date hmB hdB hneB hpB htB]
      simp [skeyLe] at hle
      omega

/-- C4 (amended): an article with a MISSING (or empty) `date` is keyed as
the epoch `1970-01-01` — so in a sorted listing it never precedes an
article whose date parses to a strictly positive timestamp — but an
article with a PRESENT, non-empty, unparsable `date` makes the sort fail
with an exception rather than being treated as the oldest date. -/
theorem claim_C4 :
    (∀ (it : CatItem) (m : List (String × String)), it.type = "article" →
      it.metadata = some m → m.lookup "date" = none →
      sort_key it = .ok (some (.inr 0))) ∧
    (∀ (l l2 xs ys zs : List CatItem) (a b : CatItem)
        (ma mb : List (String × String)) (db : String) (dtb : PyDatetime) (tsb : Int),
      sort_categories l = .ok l2 →
      l2 = xs ++ a :: (ys ++ b :: zs) →
      a.type = "article" → a.metadata = some ma → ma.lookup "date" = none →
      b.type = "article" → b.metadata = some mb → mb.lookup "date" = some db →
      db ≠ "" → fromisoformat db = some dtb → timestamp dtb = some tsb →
      tsb ≤ 0) ∧
    (∀ (l : List CatItem) (it : CatItem) (m : List (String × String)) (d : String),
      it ∈ l → it.type = "article" → it.metadata = some m →
      m.lookup "date" = some d → d ≠ "" → fromisoformat d = none →
      ∃ e, sort_categories l = .error e) := by
  refine ⟨fun it m h hm hd => sort_key_article_missing h hm hd, ?_, ?_⟩
  · intro l l2 xs ys zs a b ma mb db dtb tsb hok hsplit hartA hmA hdA hartB hmB hdB
      hneB hpB htB
    obtain ⟨-, hpw⟩ := sort_categories_ok hok
    have hsub : [a, b].Sublist l2 := by
      rw [hsplit]
      refine List.Sublist.trans ?_ (List.sublist_append_right xs _)
      refine List.Sublist.cons₂ a ?_
      refine List.Sublist.trans ?_ (List.sublist_append_right ys _)
      exact List.Sublist.cons₂ b (List.nil_sublist _)
    have hab := List.pairwise_cons.mp (hpw.sublist hsub)
    have hle := hab.1 b (List.mem_singleton.mpr rfl)
    rw [keyD_article_missing hartA hmA hdA,
      keyD_article_date hartB hmB hdB hneB hpB htB] at hle
    simp [skeyLe] at hle
    omega
  · intro l it m d hmem hart hm hd hne hp
    obtain ⟨e2, he2⟩ := mapM_sort_key_error hmem
      (sort_key_article_unparsable hart hm hd hne hp)
    refine ⟨e2, ?_⟩
    unfold sort_categories
    rw [he2]
    rfl

/-- Counterexample to C4 as stated: a single article entry whose `date`
is present but unparsable makes sorting fail with `ValueError` (from
`datetime.fromisoformat`) instead of being treated as the oldest date. -/
theorem claim_C4_counterexample :
    sort_categories [⟨"article", "x", [], some [("date", "not-a-date")]⟩]
      = .error "ValueError" := rfl

/-- Witness for C4: a concrete missing-date article keys as the epoch, and
a concrete unparsable-date listing fails to sort. -/
theorem claim_C4_witness :
    sort_key ⟨"article", "x", [], some []⟩ = .ok (some (.inr 0)) ∧
    (∃ e, sort_categories [⟨"article", "y", [], some [("date", "2024-13-99")]⟩]
      = .error e) :=
  ⟨claim_C4.1 ⟨"article", "x", [], some []⟩ [] rfl rfl rfl,
   claim_C4.2.2 [⟨"article", "y", [], some [("date", "2024-13-99")]⟩]
     ⟨"article", "y", [], some [("date", "2024-13-99")]⟩ [("date", "2024-13-99")]
     "2024-13-99" (List.mem_singleton.mpr rfl) rfl rfl (by decide) (by decide)
     (by decide)⟩

unseal List.mergeSort List.merge in
/-- Witness for C3 at the spec's end-to-end example: the article dated
`2024-06-01T00:00:00+00:00` is listed before the one dated
`2024-01-01T00:00:00+00:00`. -/
theorem claim_C3_witness :
    sort_categories
        [⟨"article", "a", ["a", "index.html"], some [("date", "2024-01-01T00:00:00+00:00")]⟩,
         ⟨"article", "b", ["b", "index.html"], some [("date", "2024-06-01T00:00:00+00:00")]⟩]
      = .ok
        [⟨"article", "b", ["b", "index.html"], some [("date", "2024-06-01T00:00:00+00:00")]⟩,
         ⟨"article", "a", ["a", "index.html"], some [("date", "2024-01-01T00:00:00+00:00")]⟩] ∧
    (∃ l2, sort_categories
        [⟨"article", "a", ["a", "index.html"], some [("date", "2024-01-01T00:00:00+00:00")]⟩,
         ⟨"article", "b", ["b", "index.html"], some [("date", "2024-06-01T00:00:00+00:00")]⟩]
      = .ok l2 ∧
      l2.Perm
        [⟨"article", "a", ["a", "index.html"], some [("date", "2024-01-01T00:00:00+00:00")]⟩,
         ⟨"article", "b", ["b", "index.html"], some [("date", "2024-06-01T00:00:00+00:00")]⟩] ∧
      l2.Pairwise (fun a b =>
        (a.type = "category" ∧ b.type = "category" ∧ a.name.toLower ≤ b.name.toLower) ∨
        (a.type = "category" ∧ b.type = "article") ∨
        (a.type = "article" ∧ b.type = "article" ∧ dateTs b ≤ dateTs a))) := by
  refine ⟨rfl, claim_C3 _ ?_⟩
  intro it hit
  rcases List.mem_cons.mp hit with h | h2
  · exact Or.inr ⟨by rw [h], [("date", "2024-01-01T00:00:00+00:00")],
      "2024-01-01T00:00:00+00:00", ⟨2024, 1, 1, 0, 0, 0, 0, some 0⟩,
      1704067200 * 2 ^ 128, by rw [h], by decide, by decide, by decide, by decide⟩
  · rcases List.mem_cons.mp h2 with h | h3
    · exact Or.inr ⟨by rw [h], [("date", "2024-06-01T00:00:00+00:00")],
        "2024-06-01T00:00:00+00:00", ⟨2024, 6, 1, 0, 0, 0, 0, some 0⟩,
        1717200000 * 2 ^ 128, by rw [h], by decide, by decide, by decide, by decide⟩
    · exact absurd h3 (List.not_mem_nil _)

/-! ### The generator (`gen_blog_dir`, `src/main.py` lines 176-230) -/

/-- A node of the built tree as the generator consumes it: the `Node`
object graph produced by `walk_dir` is a tree (each node's children list
holds the nodes built beneath it). -/
inductive NodeT where
  | mk (source_path : List String) (destination_path : List String)
      (node_type : String) (children : List NodeT)
      (metadata : Option (List (String × String)))

def NodeT.source_path : NodeT → List String
  | .mk s _ _ _ _ => s

def NodeT.destination_path : NodeT → List String
  | .mk _ d _ _ _ => d

def NodeT.node_type : NodeT → String
  | .mk _ _ t _ _ => t

def NodeT.children : NodeT → List NodeT
  | .mk _ _ _ c _ => c

def NodeT.metadata : NodeT → Option (List (String × String))
  | .mk _ _ _ _ m => m

def NodeT.weight : NodeT → Nat
  | .mk _ _ _ cs _ => 1 + (cs.attach.map (fun c => NodeT.weight c.1)).sum
  termination_by n => sizeOf n
  decreasing_by
    have h := List.sizeOf_lt_of_mem c.2
    simp only [NodeT.mk.sizeOf_spec]
    omega

theorem nodeT_weight_children_lt (n : NodeT) :
    ((n.children.map NodeT.weight).sum) < n.weight := by
  cases n with
  | mk s d t cs m =>
    simp only [NodeT.children, NodeT.weight]
    have : (cs.attach.map (fun c => NodeT.weight c.1)).sum
        = (cs.map NodeT.weight).sum := by
      rw [List.attach_map_coe]
    omega

theorem nodeT_weight_pos (n : NodeT) : 0 < n.weight := by
  cases n
  simp [NodeT.weight]

/-- The output-side filesystem: files with contents, and the set of
created directories. -/
structure FS where
  files : List (List String × String)
  dirs : List (List String)
deriving DecidableEq

/-- Replace-or-append binding of a file. -/
def filesInsert (l : List (List String × String)) (k : List String) (v : String) :
    List (List String × String) :=
  match l with
  | [] => [(k, v)]
  | (k0, v0) :: rest =>
    if k0 == k then (k, v) :: rest else (k0, v0) :: filesInsert rest k v

/-- Record a directory once. -/
def dirsInsertOne (ds : List (List String)) (p : List String) : List (List String) :=
  if p ∈ ds then ds else ds ++ [p]

/-- The non-empty prefixes of a path, shortest first. -/
def prefixesOf (p : List String) : List (List String) :=
  (List.range p.length).map (fun i => p.take (i + 1))

/-- `Path.mkdir(parents=True, exist_ok=True)`: create the directory and
its ancestors. -/
def fsMkdirp (fs : FS) (p : List String) : FS :=
  { fs with dirs := (prefixesOf p).foldl dirsInsertOne fs.dirs }

/-- `open(p, 'w').write(content)` (also `shutil.copy`'s write half). -/
def fsWrite (fs : FS) (p : List String) (content : String) : FS :=
  { fs with files := filesInsert fs.files p content }

/-- Whether `p` lies at or below `root`. -/
def isUnder (root p : List String) : Bool :=
  p.take root.length == root

/-- `shutil.rmtree(root)`: delete the root directory and everything
beneath it. -/
def fsRmtree (fs : FS) (root : List String) : FS :=
  { files := fs.files.filter (fun kv => !isUnder root kv.1),
    dirs := fs.dirs.filter (fun d => !isUnder root d) }

/-- `Path.exists(p)`: a directory or file is recorded at `p`. -/
def fsExists (fs : FS) (p : List String) : Bool :=
  fs.dirs.contains p || fs.files.any (fun kv => kv.1 == p)

/-- Read a source file (`open(p).read()`); a missing file is the fatal
`FileNotFoundError`. -/
def srcRead (srcFS : List (List String × String)) (p : List String) :
    Except String String :=
  match srcFS.lookup p with
  | some c => .ok c
  | none => .error "FileNotFoundError"

/-- The external rendering collaborators: the Markdown engine
(`markdown.markdown` with the configured extensions), the article template
(`gen_article_index`: rendered body and article name to a page), and the
category template (`gen_category_index`: listing and category name to a
page). -/
structure RenderFns where
  markdown_render : String → String
  article_template : String → String → String
  category_template : List CatItem → String → String

/-- The listing construction of `gen_blog_dir` (`src/main.py` lines
202-213): one entry per child, of any node type; an article child's
metadata is extracted now (lazy fill) from its `index.md`; the display
name and hyperlink come from the child's destination name. -/
def build_listing (srcFS : List (List String × String)) :
    List NodeT → Except String (List CatItem)
  | [] => .ok []
  | child :: rest =>
    match ((if child.node_type = "article" then
        match srcRead srcFS (child.source_path ++ ["index.md"]) with
        | .error e => .error e
        | .ok src => .ok (some (read_metadata src))
      else .ok child.metadata) :
        Except String (Option (List (String × String)))) with
    | .error e => .error e
    | .ok md =>
      match build_listing srcFS rest with
      | .error e => .error e
      | .ok items =>
        .ok (⟨child.node_type, child.destination_path.getLastD "",
          [child.destination_path.getLastD "", "index.html"], md⟩ :: items)

/-- The breadth-first generation loop (`src/main.py` lines 193-227).  The
three branches on `node_type` are mutually exclusive since the type is a
single string; a `category` node whose source name is `images` matches no
branch (only its children are enqueued).  A `category` node makes its
destination directory, builds and sorts its listing, and writes the
rendered category page as `index.html`; an `article` node only makes its
destination directory; a `leaf` node makes its parent directory and then
either renders `index.md` through the article pipeline (front matter
stripped, Markdown rendered, wrapped in the article template titled by the
parent directory's name) or copies the file byte-for-byte. -/
def genLoop (t : RenderFns) (srcFS : List (List String × String)) :
    List NodeT → FS → Except String FS
  | [], fs => .ok fs
  | node :: rest, fs =>
    let q2 := rest ++ node.children
    if node.node_type = "category" ∧ node.source_path.getLastD "" ≠ "images" then
      let fs1 := fsMkdirp fs node.destination_path
      match build_listing srcFS node.children with
      | .error e => .error e
      | .ok items =>
        match sort_categories items with
        | .error e => .error e
        | .ok sorted =>
          genLoop t srcFS q2 (fsWrite fs1 (node.destination_path ++ ["index.html"])
            (t.category_template sorted (node.source_path.getLastD "")))
    else if node.node_type = "article" then
      genLoop t srcFS q2 (fsMkdirp fs node.destination_path)
    else if node.node_type = "leaf" then
      let fs1 := fsMkdirp fs node.destination_path.dropLast
      if node.source_path.getLastD "" = "index.md" then
        match srcRead srcFS node.source_path with
        | .error e => .error e
        | .ok src =>
          genLoop t srcFS q2 (fsWrite fs1 node.destination_path
            (t.article_template (t.markdown_render (remove_metadata src))
              (node.source_path.dropLast.getLastD "")))
      else
        match srcRead srcFS node.source_path with
        | .error e => .error e
        | .ok src =>
          genLoop t srcFS q2 (fsWrite fs1 node.destination_path src)
    else
      genLoop t srcFS q2 fs
  termination_by q _ => (q.map NodeT.weight).sum
  decreasing_by
  all_goals
    simp only [List.map_cons, List.sum_cons, List.map_append, List.sum_append]
    have h := nodeT_weight_children_lt node
    omega

/-- `gen_blog_dir` (`src/main.py` lines 176-230): delete the output root
in full if it exists, then run the generation loop from the root node. -/
def gen_blog_dir (t : RenderFns) (srcFS : List (List String × String))
    (root : NodeT) (fs : FS) : Except String FS :=
  let fs0 := if fsExists fs root.destination_path
    then fsRmtree fs root.destination_path else fs
  genLoop t srcFS [root] fs0

/-! ### The output tree below the output root (claim C9) -/

/-- The files at or below `root`. -/
def filesUnder (root : List String) (l : List (List String × String)) :
    List (List String × String) :=
  l.filter (fun kv => isUnder root kv.1)

/-- The directories at or below `root`. -/
def dirsUnder (root : List String) (ds : List (List String)) :
    List (List String) :=
  ds.filter (fun d => isUnder root d)

theorem filesUnder_insert (root : List String)
    (l : List (List String × String)) (k : List String) (v : String) :
    filesUnder root (filesInsert l k v)
      = if isUnder root k then filesInsert (filesUnder root l) k v
        else filesUnder root l := by
  induction l with
  | nil =>
    by_cases h : isUnder root k
    · simp [filesUnder, filesInsert, h]
    · simp only [Bool.not_eq_true] at h
      simp [filesUnder, filesInsert, h]
  | cons kv rest ih =>
    obtain ⟨k0, v0⟩ := kv
    by_cases hk : (k0 == k) = true
    · have hkk : k0 = k := beq_iff_eq.mp hk
      rw [filesInsert, if_pos hk]
      by_cases h : isUnder root k = true
      · rw [if_pos h]
        unfold filesUnder
        rw [List.filter_cons, List.filter_cons]
        simp only [hkk, h, if_pos]
        rw [filesInsert, if_pos (by simp)]
      · rw [if_neg h]
        unfold filesUnder
        rw [List.filter_cons, List.filter_cons]
        simp only [hkk]
        simp only [Bool.not_eq_true] at h
        simp [h]
    · rw [filesInsert, if_neg hk]
      by_cases h : isUnder root k = true
      · rw [if_pos h]
        rw [if_pos h] at ih
        unfold filesUnder at ih ⊢
        rw [List.filter_cons, List.filter_cons]
        by_cases h0 : isUnder root k0 = true
        · simp only [h0, if_pos]
          rw [ih]
          rw [filesInsert, if_neg hk]
        · simp only [Bool.not_eq_true] at h0
          simp only [h0]
          rw [ih]
          simp
      · rw [if_neg h]
        rw [if_neg h] at ih
        unfold filesUnder at ih ⊢
        rw [List.filter_cons, List.filter_cons]
        by_cases h0 : isUnder root k0 = true
        · simp only [h0, if_pos]
          rw [ih]
        · simp only [Bool.not_eq_true] at h0
          simp only [h0]
          rw [ih]

theorem dirsUnder_insertOne (root : List String)
    (ds : List (List String)) (p : List String) :
    dirsUnder root (dirsInsertOne ds p)
      = if isUnder root p then dirsInsertOne (dirsUnder root ds) p
        else dirsUnder root ds := by
  unfold dirsInsertOne
  by_cases hp : isUnder root p = true
  · rw [if_pos hp]
    by_cases hmem : p ∈ ds
    · rw [if_pos hmem]
      have hmem2 : p ∈ dirsUnder root ds :=
        List.mem_filter.mpr ⟨hmem, hp⟩
      rw [if_pos hmem2]
    · rw [if_neg hmem]
      have hmem2 : p ∉ dirsUnder root ds := fun hcon =>
        hmem (List.mem_filter.mp hcon).1
      rw [if_neg hmem2]
      unfold dirsUnder
      rw [List.filter_append]
      simp [hp]
  · rw [if_neg hp]
    by_cases hmem : p ∈ ds
    · rw [if_pos hmem]
    · rw [if_neg hmem]
      unfold dirsUnder
      rw [List.filter_append]
      simp only [Bool.not_eq_true] at hp
      simp [hp]

theorem dirsUnder_fold (root : List String) :
    ∀ (ps : List (List String)) (ds ds2 : List (List String)),
    dirsUnder root ds = dirsUnder root ds2 →
    dirsUnder root (ps.foldl dirsInsertOne ds)
      = dirsUnder root (ps.foldl dirsInsertOne ds2) := by
  intro ps
  induction ps with
  | nil => intro ds ds2 h; exact h
  | cons p ps ih =>
    intro ds ds2 h
    simp only [List.foldl_cons]
    refine ih _ _ ?_
    rw [dirsUnder_insertOne, dirsUnder_insertOne, h]

/-- Equal restrictions below `root` are preserved by each filesystem
operation of the generation loop. -/
theorem mkdirp_under_congr (root : List String) {fsA fsB : FS} (p : List String)
    (hd : dirsUnder root fsA.dirs = dirsUnder root fsB.dirs) :
    dirsUnder root (fsMkdirp fsA p).dirs = dirsUnder root (fsMkdirp fsB p).dirs :=
  dirsUnder_fold root (prefixesOf p) fsA.dirs fsB.dirs hd

theorem write_under_congr (root : List String) {fsA fsB : FS}
    (p : List String) (c : String)
    (hf : filesUnder root fsA.files = filesUnder root fsB.files) :
    filesUnder root (fsWrite fsA p c).files = filesUnder root (fsWrite fsB p c).files := by
  show filesUnder root (filesInsert fsA.files p c)
    = filesUnder root (filesInsert fsB.files p c)
  rw [filesUnder_insert, filesUnder_insert, hf]

/-- The generation loop's output below any root is a function of the
input's restriction below that root (and of the source side, the
templates and the tree): the loop never reads the output filesystem. -/
theorem genLoop_congr (t : RenderFns) (srcFS : List (List String × String))
    (root : List String) :
    ∀ (q : List NodeT) (fsA : FS),
    (∀ (fsB rA rB : FS),
      genLoop t srcFS q fsA = .ok rA → genLoop t srcFS q fsB = .ok rB →
      filesUnder root fsA.files = filesUnder root fsB.files →
      dirsUnder root fsA.dirs = dirsUnder root fsB.dirs →
      filesUnder root rA.files = filesUnder root rB.files ∧
        dirsUnder root rA.dirs = dirsUnder root rB.dirs) := by
  intro q fsA
  induction q, fsA using genLoop.induct t srcFS with
  | case1 fsA =>
    intro fsB rA rB hA hB hf hd
    rw [genLoop] at hA hB
    cases hA
    cases hB
    exact ⟨hf, hd⟩
  | case2 node rest fsA hc e hlist =>
    intro fsB rA rB hA hB hf hd
    rw [genLoop, if_pos hc] at hA
    simp only [hlist] at hA
    exact absurd hA (fun hcon => Except.noConfusion hcon)
  | case3 node rest fsA hc items hlist e hsort =>
    intro fsB rA rB hA hB hf hd
    rw [genLoop, if_pos hc] at hA
    simp only [hlist, hsort] at hA
    exact absurd hA (fun hcon => Except.noConfusion hcon)
  | case4 node rest fsA q2 hc fs1 items hlist sorted hsort ih =>
    intro fsB rA rB hA hB hf hd
    rw [genLoop, if_pos hc] at hA hB
    simp only [hlist, hsort] at hA hB
    exact ih _ rA rB hA hB
      (write_under_congr root _ _ hf)
      (mkdirp_under_congr root _ hd)
  | case5 node rest fsA q2 hc hart ih =>
    intro fsB rA rB hA hB hf hd
    rw [genLoop, if_neg hc, if_pos hart] at hA hB
    exact ih _ rA rB hA hB hf (mkdirp_under_congr root _ hd)
  | case6 node rest fsA hc hart hleaf hidx e hsrc =>
    intro fsB rA rB hA hB hf hd
    rw [genLoop, if_neg hc, if_neg hart, if_pos hleaf, if_pos hidx] at hA
    simp only [hsrc] at hA
    exact absurd hA (fun hcon => Except.noConfusion hcon)
  | case7 node rest fsA q2 hc hart hleaf fs1 hidx src hsrc ih =>
    intro fsB rA rB hA hB hf hd
    rw [genLoop, if_neg hc, if_neg hart, if_pos hleaf, if_pos hidx] at hA hB
    simp only [hsrc] at hA hB
    exact ih _ rA rB hA hB
      (write_under_congr root _ _ hf)
      (mkdirp_under_congr root _ hd)
  | case8 node rest fsA hc hart hleaf hidx e hsrc =>
    intro fsB rA rB hA hB hf hd
    rw [genLoop, if_neg hc, if_neg hart, if_pos hleaf, if_neg hidx] at hA
    simp only [hsrc] at hA
    exact absurd hA (fun hcon => Except.noConfusion hcon)
  | case9 node rest fsA q2 hc hart hleaf fs1 hidx src hsrc ih =>
    intro fsB rA rB hA hB hf hd
    rw [genLoop, if_neg hc, if_neg hart, if_pos hleaf, if_neg hidx] at hA hB
    simp only [hsrc] at hA hB
    exact ih _ rA rB hA hB
      (write_under_congr root _ _ hf)
      (mkdirp_under_congr root _ hd)
  | case10 node rest fsA q2 hc hart hleaf ih =>
    intro fsB rA rB hA hB hf hd
    rw [genLoop, if_neg hc, if_neg hart, if_neg hleaf] at hA hB
    exact ih _ rA rB hA hB hf hd

/-- Well-formedness of an output-side filesystem state: if anything at
all is recorded at or below `root`, then `root` itself exists (as every
real filesystem guarantees — a file's ancestors exist). -/
def fsWF (root : List String) (fs : FS) : Prop :=
  (fs.files.any (fun kv => isUnder root kv.1)
    || fs.dirs.any (fun d => isUnder root d)) = true →
  fsExists fs root = true

/-- After the destructive-delete preamble of `gen_blog_dir` (lines
188-191), nothing is left below the output root: either the root existed
and `shutil.rmtree` removed the subtree, or (on a well-formed state)
nothing was there to begin with. -/
theorem pre_under_empty (root : List String) (fs : FS) (hwf : fsWF root fs) :
    filesUnder root (if fsExists fs root then fsRmtree fs root else fs).files = [] ∧
    dirsUnder root (if fsExists fs root then fsRmtree fs root else fs).dirs = [] := by
  by_cases hex : fsExists fs root = true
  · rw [if_pos hex]
    constructor
    · unfold filesUnder fsRmtree
      rw [List.filter_filter]
      rw [List.filter_eq_nil_iff]
      intro a _ hcon
      simp at hcon
    · unfold dirsUnder fsRmtree
      rw [List.filter_filter]
      rw [List.filter_eq_nil_iff]
      intro a _ hcon
      simp at hcon
  · rw [if_neg hex]
    have h2 : (fs.files.any (fun kv => isUnder root kv.1)
        || fs.dirs.any (fun d => isUnder root d)) = false := by
      cases h3 : (fs.files.any (fun kv => isUnder root kv.1)
          || fs.dirs.any (fun d => isUnder root d)) with
      | true => exact absurd (hwf h3) hex
      | false => rfl
    rw [Bool.or_eq_false_iff] at h2
    constructor
    · unfold filesUnder
      rw [List.filter_eq_nil_iff]
      intro a ha hcon
      exact (List.any_eq_false.mp h2.1) a ha hcon
    · unfold dirsUnder
      rw [List.filter_eq_nil_iff]
      intro a ha hcon
      exact (List.any_eq_false.mp h2.2) a ha hcon

/-- C9: for every generated site, the output tree below the output root is
independent of whatever was there before generation started: if the output
root already exists it is deleted in full before any output is written, so
two runs of the generator over the same input tree, source files and
templates — in particular an immediate second run over unchanged input,
taking the first run's result as the prior state — produce byte-identical
output trees, with no stale artifacts surviving.  (States are required to
be well-formed: anything recorded below the output root implies the root
itself exists, as on a real filesystem.) -/
theorem claim_C9 (t : RenderFns) (srcFS : List (List String × String))
    (root : NodeT) (fsA fsB rA rB : FS)
    (hwfA : fsWF root.destination_path fsA)
    (hwfB : fsWF root.destination_path fsB)
    (hA : gen_blog_dir t srcFS root fsA = .ok rA)
    (hB : gen_blog_dir t srcFS root fsB = .ok rB) :
    filesUnder root.destination_path rA.files
      = filesUnder root.destination_path rB.files ∧
    dirsUnder root.destination_path rA.dirs
      = dirsUnder root.destination_path rB.dirs := by
  unfold gen_blog_dir at hA hB
  obtain ⟨hfA, hdA⟩ := pre_under_empty root.destination_path fsA hwfA
  obtain ⟨hfB, hdB⟩ := pre_under_empty root.destination_path fsB hwfB
  exact genLoop_congr t srcFS root.destination_path [root] _ _ rA rB hA hB
    (by rw [hfA, hfB]) (by rw [hdA, hdB])

/-- Witness for C9 at a concrete article tree rendered with concrete
template functions, from two different prior output states (an empty disk,
and a disk with a stale file below the output root): both runs succeed and
agree below the output root. -/
theorem claim_C9_witness :
    filesUnder ["public", "post"]
        (FS.mk [(["public", "post", "index.html"], "post:body")]
          [["public"], ["public", "post"]]).files
      = filesUnder ["public", "post"]
        (FS.mk [(["public", "post", "index.html"], "post:body")]
          [["public"], ["public", "post"]]).files ∧
    dirsUnder ["public", "post"]
        (FS.mk [(["public", "post", "index.html"], "post:body")]
          [["public"], ["public", "post"]]).dirs
      = dirsUnder ["public", "post"]
        (FS.mk [(["public", "post", "index.html"], "post:body")]
          [["public"], ["public", "post"]]).dirs := by
  refine claim_C9 ⟨fun s => s, fun b n => n ++ ":" ++ b, fun _ n => n⟩
    [(["blog", "post", "index.md"], "---\ntitle: T\n---\nbody")]
    (.mk ["blog", "post"] ["public", "post"] "article"
      [.mk ["blog", "post", "index.md"] ["public", "post", "index.html"] "leaf" [] none]
      none)
    ⟨[], []⟩
    ⟨[(["public", "post", "stale.txt"], "junk")], [["public"], ["public", "post"]]⟩
    (FS.mk [(["public", "post", "index.html"], "post:body")]
      [["public"], ["public", "post"]])
    (FS.mk [(["public", "post", "index.html"], "post:body")]
      [["public"], ["public", "post"]])
    (by intro h; simp [isUnder] at h) (by intro h; rfl) ?_ ?_
  · simp [gen_blog_dir, genLoop, fsExists, fsRmtree, fsMkdirp, fsWrite, prefixesOf,
      dirsInsertOne, filesInsert, srcRead, NodeT.node_type, NodeT.source_path,
      NodeT.destination_path, NodeT.children, isUnder,
      remove_metadata, pySplitlines]
    decide
  · simp [gen_blog_dir, genLoop, fsExists, fsRmtree, fsMkdirp, fsWrite, prefixesOf,
      dirsInsertOne, filesInsert, srcRead, NodeT.node_type, NodeT.source_path,
      NodeT.destination_path, NodeT.children, isUnder,
      remove_metadata, pySplitlines]
    decide

/-- Items built for children keep the child's node type, and one item is
built per child. -/
theorem build_listing_spec :
    ∀ (srcFS : List (List String × String)) (children : List NodeT)
      (items : List CatItem),
    build_listing srcFS children = .ok items →
    items.length = children.length ∧
      ∀ it ∈ items, ∃ child ∈ children, it.type = child.node_type := by
  intro srcFS children
  induction children with
  | nil =>
    intro items h
    cases h
    exact ⟨rfl, fun it hit => absurd hit (List.not_mem_nil _)⟩
  | cons child rest ih =>
    intro items h
    rw [build_listing] at h
    cases hmd : ((if child.node_type = "article" then
        match srcRead srcFS (child.source_path ++ ["index.md"]) with
        | .error e => .error e
        | .ok src => .ok (some (read_metadata src))
      else .ok child.metadata) :
        Except String (Option (List (String × String)))) with
    | error e =>
      rw [hmd] at h
      exact absurd h (fun hcon => Except.noConfusion hcon)
    | ok md =>
      rw [hmd] at h
      cases hbl : build_listing srcFS rest with
      | error e =>
        rw [hbl] at h
        exact absurd h (fun hcon => Except.noConfusion hcon)
      | ok its =>
        rw [hbl] at h
        cases h
        obtain ⟨hlen, hmem⟩ := ih its hbl
        constructor
        · simp [hlen]
        · intro it hit
          rcases List.mem_cons.mp hit with heq | hmem2
          · exact ⟨child, List.mem_cons_self _ _, by rw [heq]⟩
          · obtain ⟨c, hc, ht⟩ := hmem _ hmem2
            exact ⟨c, List.mem_cons_of_mem _ hc, ht⟩

theorem mapM_sort_key_mem :
    ∀ {l : List CatItem} {ks : List (Option (String ⊕ Int))} {it : CatItem}
      {k : Option (String ⊕ Int)},
    l.mapM sort_key = .ok ks → it ∈ l → sort_key it = .ok k → k ∈ ks := by
  intro l
  induction l with
  | nil =>
    intro ks it k _ hmem
    exact absurd hmem (List.not_mem_nil _)
  | cons a l ih =>
    intro ks it k hml hmem hsk
    rw [List.mapM_cons] at hml
    cases hka : sort_key a with
    | error e =>
      rw [hka] at hml
      exact absurd hml (fun hcon => Except.noConfusion hcon)
    | ok ka =>
      rw [hka] at hml
      cases hll : l.mapM sort_key with
      | error e =>
        rw [hll] at hml
        exact absurd hml (fun hcon => Except.noConfusion hcon)
      | ok ks2 =>
        rw [hll] at hml
        have hks : ks = ka :: ks2 := by
          cases hml
          rfl
        rcases List.mem_cons.mp hmem with heq | hmem2
        · rw [heq] at hsk
          rw [hka] at hsk
          have : k = ka := by cases hsk; rfl
          rw [hks, this]
          exact List.mem_cons_self _ _
        · rw [hks]
          exact List.mem_cons_of_mem _ (ih hll hmem2 hsk)

/-- C7 (amended): one listing entry is built per child of ANY node type
(and the entry keeps the child's type); the comparison key is defined for
category entries; but for an entry of any other non-article type — in
particular a `leaf` child such as a loose file inside a category
directory — `sort_categories` returns Python `None` instead of a key, so
sorting a listing of two or more entries containing such an entry raises
`TypeError` rather than always succeeding. -/
theorem claim_C7 :
    (∀ (srcFS : List (List String × String)) (children : List NodeT)
        (items : List CatItem),
      build_listing srcFS children = .ok items →
      items.length = children.length ∧
        ∀ it ∈ items, ∃ child ∈ children, it.type = child.node_type) ∧
    (∀ it : CatItem, it.type = "category" →
      sort_key it = .ok (some (.inl it.name.toLower))) ∧
    (∀ it : CatItem, it.type ≠ "category" → it.type ≠ "article" →
      sort_key it = .ok none) ∧
    (∀ (l : List CatItem) (it : CatItem), it ∈ l → 2 ≤ l.length →
      sort_key it = .ok none → ∃ e, sort_categories l = .error e) := by
  refine ⟨build_listing_spec, fun it h => sort_key_category h,
    fun it h1 h2 => sort_key_other h1 h2, ?_⟩
  intro l it hmem hlen hkey
  cases hml : l.mapM sort_key with
  | error e =>
    refine ⟨e, ?_⟩
    unfold sort_categories
    rw [hml]
    rfl
  | ok ks =>
    refine ⟨"TypeError", ?_⟩
    unfold sort_categories
    rw [hml]
    have hnone : (none : Option (String ⊕ Int)) ∈ ks := mapM_sort_key_mem hml hmem hkey
    have hany : ks.any Option.isNone = true :=
      List.any_eq_true.mpr ⟨none, hnone, rfl⟩
    show (if 2 ≤ l.length ∧ ks.any Option.isNone = true then
        (Except.error "TypeError" : Except String (List CatItem))
      else .ok (l.mergeSort (fun a b => skeyLe (keyD a) (keyD b)))) = _
    rw [if_pos ⟨hlen, hany⟩]

/-- Counterexample to C7 as stated: generating a category directory that
contains two loose (leaf) files crashes — the two listing entries have a
`None` sort key, and sorting raises `TypeError` — so sorting does NOT
always succeed on generator-built listings. -/
theorem claim_C7_counterexample :
    gen_blog_dir ⟨fun s => s, fun b n => n ++ ":" ++ b, fun _ n => n⟩
      [(["blog", "a.txt"], "x"), (["blog", "b.txt"], "y")]
      (.mk ["blog"] ["public"] "category"
        [.mk ["blog", "a.txt"] ["public", "a.txt"] "leaf" [] none,
         .mk ["blog", "b.txt"] ["public", "b.txt"] "leaf" [] none]
        none)
      ⟨[], []⟩
      = .error "TypeError" := by
  simp [gen_blog_dir, genLoop, fsExists, fsRmtree, fsMkdirp, fsWrite, prefixesOf,
    dirsInsertOne, filesInsert, srcRead, NodeT.node_type, NodeT.source_path,
    NodeT.destination_path, NodeT.children, isUnder, build_listing,
    sort_categories, sort_key, List.mapM_cons]
  rfl

/-- Witness for C7 at concrete values: a two-leaf listing is built with
one entry per child, and sorting it fails. -/
theorem claim_C7_witness :
    ([(⟨"leaf", "a.txt", ["a.txt", "index.html"], none⟩ : CatItem),
      ⟨"leaf", "b.txt", ["b.txt", "index.html"], none⟩].length
      = [NodeT.mk ["blog", "a.txt"] ["public", "a.txt"] "leaf" [] none,
         NodeT.mk ["blog", "b.txt"] ["public", "b.txt"] "leaf" [] none].length ∧
      ∀ it ∈ [(⟨"leaf", "a.txt", ["a.txt", "index.html"], none⟩ : CatItem),
        ⟨"leaf", "b.txt", ["b.txt", "index.html"], none⟩],
        ∃ child ∈ [NodeT.mk ["blog", "a.txt"] ["public", "a.txt"] "leaf" [] none,
          NodeT.mk ["blog", "b.txt"] ["public", "b.txt"] "leaf" [] none],
          it.type = child.node_type) ∧
    (∃ e, sort_categories
      [(⟨"leaf", "a.txt", ["a.txt", "index.html"], none⟩ : CatItem),
       ⟨"leaf", "b.txt", ["b.txt", "index.html"], none⟩] = .error e) :=
  ⟨claim_C7.1 [(["blog", "a.txt"], "x"), (["blog", "b.txt"], "y")]
    [NodeT.mk ["blog", "a.txt"] ["public", "a.txt"] "leaf" [] none,
     NodeT.mk ["blog", "b.txt"] ["public", "b.txt"] "leaf" [] none]
    [⟨"leaf", "a.txt", ["a.txt", "index.html"], none⟩,
     ⟨"leaf", "b.txt", ["b.txt", "index.html"], none⟩] rfl,
   claim_C7.2.2.2
    [⟨"leaf", "a.txt", ["a.txt", "index.html"], none⟩,
     ⟨"leaf", "b.txt", ["b.txt", "index.html"], none⟩]
    ⟨"leaf", "a.txt", ["a.txt", "index.html"], none⟩
    (List.mem_cons_self _ _) (by decide) rfl⟩

end Blogger
